import Mathlib

/-!
Shallow embedding of the parallel_bfs repository: the CSR graph structure
(include/parallel_bfs.h), the serial baseline BFS, the level-synchronous
parallel BFS, the multi-source BFS and the graph builders
(src/parallel_bfs.cpp), together with proofs of the specification claims.

Parallel loops are serialized.  The only shared mutable state of the kernels
is the atomic distance vector; every write to it is a compare-and-swap that
moves a cell away from the UNREACHED sentinel, each cell is claimed at most
once per level and the value written at a level is determined by the level
alone, so the final distance vector of the parallel kernels is the one
computed by the serialized execution modelled here.  Machine integers are
modelled as Int (values stored in C++ int cells) and Nat (sizes); the two
narrowing conversions the source performs are modelled explicitly.
-/

/-- The maximum value of the 32-bit C++ int. -/
def INT_MAX : Int := 2147483647

/-- Sentinel of the distance vector meaning not yet visited. -/
def UNREACHED : Int := INT_MAX

/-- C++ conversion of a size_t value to int: reduction modulo 2^32 into the
signed range (the behaviour mandated for narrowing conversions). -/
def cppIntOfNat (n : Nat) : Int :=
  if n % 2 ^ 32 < 2 ^ 31 then ((n % 2 ^ 32 : Nat) : Int)
  else ((n % 2 ^ 32 : Nat) : Int) - 2 ^ 32

/-- C++ conversion of an int value to size_t: reduction modulo 2^64. -/
def cppSizeOfInt (x : Int) : Nat := (x % 2 ^ 64).toNat

/-- Subtraction of 1 in size_t arithmetic, wrapping at zero. -/
def sizeSub1 (n : Nat) : Nat := (n + 2 ^ 64 - 1) % 2 ^ 64

/-- CSR graph, struct Graph of include/parallel_bfs.h: the offsets and edges
vectors of C++ int.  The avg_degree field is derived from the two vectors at
construction; it is recomputed on demand here (Graph.avgDegree below). -/
structure Graph where
  offsets : List Int
  edges : List Int
deriving DecidableEq

/-- Graph::vertex_count, offsets.size() - 1. -/
def Graph.vertex_count (g : Graph) : Nat := g.offsets.length - 1

/-- Graph::edge_count, edges.size(). -/
def Graph.edge_count (g : Graph) : Nat := g.edges.length

/-- Entry u of the offsets vector, with a junk default outside the vector
(where the C++ source would have undefined behaviour). -/
def Graph.off (g : Graph) (u : Nat) : Int := g.offsets.getD u 0

/-- The half-open slice edges[offsets[u] .. offsets[u+1]], the body of
Graph::neighbors.  Total on Nat indices; the kernels only apply it to
in-range vertices, where it coincides with the guarded Graph::neighbors. -/
def Graph.nbrs (g : Graph) (u : Nat) : List Int :=
  (g.edges.drop (g.off u).toNat).take ((g.off (u + 1)) - g.off u).toNat

/-- Neighbor vertex ids converted to naturals; on valid graphs every target
is non-negative, so the conversion is the identity on the stored value. -/
def Graph.nbrsN (g : Graph) (u : Nat) : List Nat := (g.nbrs u).map Int.toNat

/-- Graph::neighbors (src/parallel_bfs.cpp:14): bound check against
static_cast of offsets.size() - 1 to int, throwing std::out_of_range when
the index is outside the range, otherwise the edge slice. -/
def Graph.neighbors (g : Graph) (u : Int) : Except String (List Int) :=
  if u < 0 ∨ cppIntOfNat (sizeSub1 g.offsets.length) ≤ u then
    Except.error "Vertex index out of range"
  else
    Except.ok (g.nbrs u.toNat)

/-- Graph::validate (include/parallel_bfs.h:38): offsets non-empty,
offsets.back() equal to edges.size() (an int compared against a size_t, so
the int is converted to size_t first), and every edge target v satisfying
0 <= v and v < static_cast of offsets.size() - 1 to int. -/
def Graph.validate (g : Graph) : Bool :=
  if g.offsets.isEmpty then false
  else if cppSizeOfInt (g.offsets.getLastD 0) ≠ g.edges.length then false
  else g.edges.all fun v =>
    decide (0 ≤ v) && decide (v < cppIntOfNat (sizeSub1 g.offsets.length))

/-- Computable check that a list of integers is non-decreasing. -/
def monoChain : List Int → Bool
  | [] => true
  | [_] => true
  | a :: b :: t => decide (a ≤ b) && monoChain (b :: t)

theorem monoChain_iff : ∀ l : List Int,
    (monoChain l = true ↔ List.Chain' (· ≤ ·) l)
  | [] => by simp [monoChain]
  | [a] => by simp [monoChain]
  | a :: b :: t => by
    have ih := monoChain_iff (b :: t)
    rw [show monoChain (a :: b :: t) = (decide (a ≤ b) && monoChain (b :: t))
        from rfl,
      Bool.and_eq_true, decide_eq_true_eq, ih, List.chain'_cons]

/-- Validity of a CSR graph per the data model of spec section 3: at least
one vertex, offsets starting at 0, monotonically non-decreasing, closing at
the edge count, every edge target a vertex id, and every vertex id (hence
every finite BFS distance) representable strictly below the int sentinel. -/
def Graph.csrWF (g : Graph) : Prop :=
  2 ≤ g.offsets.length ∧
  g.offsets.getD 0 0 = 0 ∧
  monoChain g.offsets = true ∧
  g.offsets.getLastD 0 = (g.edges.length : Int) ∧
  (∀ v ∈ g.edges, 0 ≤ v ∧ v < (g.vertex_count : Int)) ∧
  (g.vertex_count : Int) ≤ INT_MAX

instance (g : Graph) : Decidable g.csrWF :=
  inferInstanceAs (Decidable (2 ≤ g.offsets.length ∧
    g.offsets.getD 0 0 = 0 ∧
    monoChain g.offsets = true ∧
    g.offsets.getLastD 0 = (g.edges.length : Int) ∧
    (∀ v ∈ g.edges, 0 ≤ v ∧ v < (g.vertex_count : Int)) ∧
    (g.vertex_count : Int) ≤ INT_MAX))

/-- ParallelBFS::get_distances: snapshot of the first V cells of the
distance vector. -/
def ParallelBFS.get_distances (d : Nat → Int) (V : Nat) : List Int :=
  (List.range V).map d

section GraphLemmas

variable {g : Graph}

theorem Graph.nbrs_subset_edges {u : Nat} {v : Int} (h : v ∈ g.nbrs u) :
    v ∈ g.edges := by
  have h1 := List.take_subset _ _ h
  exact List.drop_subset _ _ h1

theorem Graph.target_range (hwf : g.csrWF) {u : Nat} {v : Int}
    (h : v ∈ g.nbrs u) : 0 ≤ v ∧ v < (g.vertex_count : Int) :=
  hwf.2.2.2.2.1 v (Graph.nbrs_subset_edges h)

theorem Graph.nbrsN_lt (hwf : g.csrWF) {u v : Nat} (h : v ∈ g.nbrsN u) :
    v < g.vertex_count := by
  rcases List.mem_map.1 h with ⟨w, hw, rfl⟩
  rcases Graph.target_range hwf hw with ⟨h0, h1⟩
  omega

theorem Graph.off_mono (hwf : g.csrWF) {i j : Nat} (hij : i ≤ j)
    (hj : j < g.offsets.length) : g.off i ≤ g.off j := by
  have hpw : List.Pairwise (· ≤ ·) g.offsets :=
    List.chain'_iff_pairwise.1 ((monoChain_iff _).1 hwf.2.2.1)
  rcases Nat.eq_or_lt_of_le hij with rfl | hlt
  · exact le_refl _
  · have hi : i < g.offsets.length := lt_trans hlt hj
    have := (List.pairwise_iff_get.1 hpw) ⟨i, hi⟩ ⟨j, hj⟩ hlt
    simpa [Graph.off, List.getD_eq_getElem?_getD, List.getElem?_eq_getElem,
      hi, hj] using this

theorem Graph.off_zero (hwf : g.csrWF) : g.off 0 = 0 := hwf.2.1

theorem Graph.off_nonneg (hwf : g.csrWF) (i : Nat) : 0 ≤ g.off i := by
  by_cases hi : i < g.offsets.length
  · have := Graph.off_mono hwf (Nat.zero_le i) hi
    rw [Graph.off_zero hwf] at this
    exact this
  · simp [Graph.off, List.getD_eq_getElem?_getD, List.getElem?_eq_none
      (le_of_not_lt hi)]

theorem Graph.off_last (hwf : g.csrWF) :
    g.off g.vertex_count = (g.edges.length : Int) := by
  have hne : g.offsets ≠ [] := by
    intro h
    have := hwf.1
    simp [h] at this
  have hlast : g.offsets.getLastD 0 = g.offsets.getD (g.offsets.length - 1) 0 := by
    rw [List.getLastD_eq_getLast?, List.getLast?_eq_getElem?,
      List.getD_eq_getElem?_getD]
  have := hwf.2.2.2.1
  rw [hlast] at this
  simpa [Graph.off, Graph.vertex_count] using this

theorem Graph.off_le_E (hwf : g.csrWF) {i : Nat} (hi : i ≤ g.vertex_count) :
    g.off i ≤ (g.edges.length : Int) := by
  have hlen : g.vertex_count < g.offsets.length := by
    have := hwf.1
    unfold Graph.vertex_count
    omega
  calc g.off i ≤ g.off g.vertex_count := Graph.off_mono hwf hi hlen
    _ = _ := Graph.off_last hwf

end GraphLemmas

/-- Processing of the neighbor list of a claimed vertex u: for each target v
in order, the compare-and-swap dist[v].cas(UNREACHED, dist[u].load() + 1);
on success v joins the output buffer.  This is the body of the queue loop of
ParallelBFS::baseline and of the frontier loop of ParallelBFS::optimized. -/
def relaxNbrs (u : Nat) (d : Nat → Int) : List Int → ((Nat → Int) × List Nat)
  | [] => (d, [])
  | v :: vs =>
    if d v.toNat = UNREACHED then
      let d1 : Nat → Int := fun i => if i = v.toNat then d u + 1 else d i
      let r := relaxNbrs u d1 vs
      (r.1, v.toNat :: r.2)
    else relaxNbrs u d vs

/-- Processing of one dequeued or frontier vertex. -/
def relaxOne (g : Graph) (d : Nat → Int) (u : Nat) : (Nat → Int) × List Nat :=
  relaxNbrs u d (g.nbrs u)

/-- Distance initialization of both single-source kernels: every cell
INT_MAX, then dist[source] claimed with 0. -/
def ParallelBFS.initDist (s : Nat) : Nat → Int :=
  fun i => if i = s then 0 else UNREACHED

/-- Queue loop of ParallelBFS::baseline.  The fuel bounds the number of
dequeues; every enqueue after the source is a successful claim of a distinct
vertex, so vertex_count + 1 dequeues always suffice. -/
def ParallelBFS.baselineLoop (g : Graph) :
    Nat → List Nat → (Nat → Int) → (Nat → Int)
  | _, [], d => d
  | 0, _ :: _, d => d
  | fuel + 1, u :: q, d =>
    let r := relaxOne g d u
    ParallelBFS.baselineLoop g fuel (q ++ r.2) r.1

/-- ParallelBFS::baseline (src/parallel_bfs.cpp:137), the serial oracle. -/
def ParallelBFS.baseline (g : Graph) (s : Nat) : Nat → Int :=
  ParallelBFS.baselineLoop g (g.vertex_count + 1) [s] (ParallelBFS.initDist s)

/-- Model of std::sort on the next frontier.  std::sort only promises a
sorted permutation; insertion sort keeps the model kernel-computable. -/
def sortNat (l : List Nat) : List Nat := List.insertionSort (· ≤ ·) l

/-- Model of std::unique: drops consecutive duplicates, keeping the first
element of each run (auxiliary recursion over the tail). -/
def uniqueAdjAux (prev : Nat) : List Nat → List Nat
  | [] => []
  | b :: t => if b = prev then uniqueAdjAux prev t else b :: uniqueAdjAux b t

/-- Model of std::unique on the whole vector. -/
def uniqueAdj : List Nat → List Nat
  | [] => []
  | a :: t => a :: uniqueAdjAux a t

/-- The duplicate-removal step of ParallelBFS::optimized: sort + unique. -/
def sortDedup (l : List Nat) : List Nat := uniqueAdj (sortNat l)

/-- One level of ParallelBFS::optimized: every frontier vertex is processed,
claiming still-unreached neighbors with its distance plus one; the
per-thread buffers concatenated after the parallel region are modelled by
in-order concatenation. -/
def ParallelBFS.tdProcess (g : Graph) (d : Nat → Int) :
    List Nat → ((Nat → Int) × List Nat)
  | [] => (d, [])
  | u :: f =>
    let r := relaxOne g d u
    let r2 := ParallelBFS.tdProcess g r.1 f
    (r2.1, r.2 ++ r2.2)

/-- Level loop of ParallelBFS::optimized.  Returns the final distance vector
together with the frontier at exit; the loop exits with an empty frontier
and vertex_count + 1 levels are shown to be enough. -/
def ParallelBFS.optLoop (g : Graph) :
    Nat → List Nat → (Nat → Int) → ((Nat → Int) × List Nat)
  | _, [], d => (d, [])
  | 0, f, d => (d, f)
  | fuel + 1, u :: f, d =>
    let r := ParallelBFS.tdProcess g d (u :: f)
    ParallelBFS.optLoop g fuel (sortDedup r.2) r.1

/-- ParallelBFS::optimized (src/parallel_bfs.cpp:76), serialized. -/
def ParallelBFS.optimized (g : Graph) (s : Nat) : (Nat → Int) × List Nat :=
  ParallelBFS.optLoop g (g.vertex_count + 1) [s] (ParallelBFS.initDist s)

/-- Source scan of ParallelBFS::optimized_multi_source, serialized: the
first vertex that is still unreached and has at least one out-edge. -/
def ParallelBFS.msFind (g : Graph) (d : Nat → Int) : Option Nat :=
  (List.range g.vertex_count).find? fun i =>
    decide (d i = UNREACHED) && !(g.nbrs i).isEmpty

/-- Outer loop of ParallelBFS::optimized_multi_source: repeatedly claim a
fresh source with distance 0 and run a serial BFS from it, until no
unreached vertex with out-edges remains. -/
def ParallelBFS.msLoop (g : Graph) : Nat → (Nat → Int) → (Nat → Int)
  | 0, d => d
  | fuel + 1, d =>
    match ParallelBFS.msFind g d with
    | none => d
    | some i =>
      let d1 : Nat → Int := fun j => if j = i then 0 else d j
      ParallelBFS.msLoop g fuel
        (ParallelBFS.baselineLoop g (g.vertex_count + 1) [i] d1)

/-- ParallelBFS::optimized_multi_source (src/parallel_bfs.cpp:213),
serialized; the caller passes the distance vector pre-filled with INT_MAX.
The total_visited early exit only skips source scans that would find
nothing, so it does not change the result and is not modelled. -/
def ParallelBFS.optimized_multi_source (g : Graph) (d : Nat → Int) :
    Nat → Int :=
  ParallelBFS.msLoop g (g.vertex_count + 1) d

/-- The all-INT_MAX vector the callers of the multi-source kernel pass in. -/
def allUnreached : Nat → Int := fun _ => UNREACHED

/-- Directed walks: ReachN g s n v holds when there is a walk of length n
from s to v along the neighbor slices. -/
inductive ReachN (g : Graph) (s : Nat) : Nat → Nat → Prop
  | zero : ReachN g s 0 s
  | succ {n u v : Nat} : ReachN g s n u → v ∈ g.nbrsN u → ReachN g s (n + 1) v

/-- Reachability from the source. -/
def Reaches (g : Graph) (s v : Nat) : Prop := ∃ n, ReachN g s n v

/-- n is the length of a shortest directed path from s to v. -/
def MinDist (g : Graph) (s n v : Nat) : Prop :=
  ReachN g s n v ∧ ∀ m, ReachN g s m v → n ≤ m

/-- Number of still-unreached cells among the first V: the termination
measure of every kernel loop. -/
def countU (V : Nat) (d : Nat → Int) : Nat :=
  ((Finset.range V).filter fun i => d i = UNREACHED).card

section RelaxLemmas

theorem relaxNbrs_none (u : Nat) (d : Nat → Int) (vs : List Int)
    (h : ∀ v ∈ vs, d v.toNat ≠ UNREACHED) :
    relaxNbrs u d vs = (d, []) := by
  induction vs with
  | nil => rfl
  | cons v vs ih =>
    have hv := h v (List.mem_cons_self _ _)
    simp only [relaxNbrs, if_neg hv]
    exact ih fun w hw => h w (List.mem_cons_of_mem _ hw)

theorem relaxNbrs_spec_aux (u : Nat) (vs : List Int) :
    ∀ d : Nat → Int, d u ≠ UNREACHED → d u + 1 ≠ UNREACHED →
    (∀ w, (relaxNbrs u d vs).1 w =
      if d w = UNREACHED ∧ w ∈ vs.map Int.toNat then d u + 1 else d w) ∧
    (∀ w, w ∈ (relaxNbrs u d vs).2 ↔
      (d w = UNREACHED ∧ w ∈ vs.map Int.toNat)) ∧
    (relaxNbrs u d vs).2.Nodup := by
  induction vs with
  | nil =>
    intro d hu h1
    simp [relaxNbrs]
  | cons v vs ih =>
    intro d hu h1
    by_cases hv : d v.toNat = UNREACHED
    · have huv : u ≠ v.toNat := by
        intro h
        rw [h] at hu
        exact hu hv
      have key : relaxNbrs u d (v :: vs) =
          ((relaxNbrs u (fun i => if i = v.toNat then d u + 1 else d i) vs).1,
           v.toNat ::
            (relaxNbrs u (fun i => if i = v.toNat then d u + 1 else d i) vs).2) := by
        simp only [relaxNbrs, if_pos hv]
      set d1 : Nat → Int := fun i => if i = v.toNat then d u + 1 else d i with hd1
      have hd1u : d1 u = d u := by simp [hd1, huv]
      have hd1v : d1 v.toNat = d u + 1 := by simp [hd1]
      obtain ⟨ihd, ihm, ihn⟩ := ih d1 (by rw [hd1u]; exact hu) (by rw [hd1u]; exact h1)
      rw [key]
      refine ⟨?_, ?_, ?_⟩
      · intro w
        rw [ihd w, hd1u]
        by_cases hw : w = v.toNat
        · subst hw
          rw [hd1v, if_neg (fun hc => h1 hc.1),
            if_pos ⟨hv, List.mem_map_of_mem _ (List.mem_cons_self _ _)⟩]
        · have hd1w : d1 w = d w := by simp [hd1, hw]
          rw [hd1w]
          by_cases hmem : d w = UNREACHED ∧ w ∈ vs.map Int.toNat
          · rw [if_pos hmem, if_pos ⟨hmem.1, List.mem_cons_of_mem _ hmem.2⟩]
          · have hneg : ¬(d w = UNREACHED ∧ w ∈ (v :: vs).map Int.toNat) := by
              intro hc
              rcases List.mem_cons.1 hc.2 with h | h
              · exact hw h
              · exact hmem ⟨hc.1, h⟩
            rw [if_neg hmem, if_neg hneg]
      · intro w
        simp only [List.mem_cons, ihm w, List.map_cons]
        by_cases hw : w = v.toNat
        · subst hw
          simp [hv]
        · have hd1w : d1 w = d w := by simp [hd1, hw]
          rw [hd1w]
          constructor
          · rintro (h | ⟨ha, hb⟩)
            · exact absurd h hw
            · exact ⟨ha, Or.inr hb⟩
          · rintro ⟨ha, h | h⟩
            · exact absurd h hw
            · exact Or.inr ⟨ha, h⟩
      · refine List.Nodup.cons ?_ ihn
        intro hmem
        have h2 := (ihm v.toNat).1 hmem
        rw [hd1v] at h2
        exact h1 h2.1
    · have key : relaxNbrs u d (v :: vs) = relaxNbrs u d vs := by
        simp only [relaxNbrs, if_neg hv]
      obtain ⟨ihd, ihm, ihn⟩ := ih d hu h1
      rw [key]
      refine ⟨?_, ?_, ihn⟩
      · intro w
        rw [ihd w]
        by_cases hw : w = v.toNat
        · subst hw
          rw [if_neg (fun hc => hv hc.1), if_neg (fun hc => hv hc.1)]
        · by_cases hmem : d w = UNREACHED ∧ w ∈ vs.map Int.toNat
          · rw [if_pos hmem, if_pos ⟨hmem.1, List.mem_cons_of_mem _ hmem.2⟩]
          · have hneg : ¬(d w = UNREACHED ∧ w ∈ (v :: vs).map Int.toNat) := by
              intro hc
              rcases List.mem_cons.1 hc.2 with h | h
              · exact hw h
              · exact hmem ⟨hc.1, h⟩
            rw [if_neg hmem, if_neg hneg]
      · intro w
        rw [ihm w]
        simp only [List.map_cons, List.mem_cons]
        by_cases hw : w = v.toNat
        · subst hw
          simp [hv]
        · constructor
          · rintro ⟨ha, hb⟩
            exact ⟨ha, Or.inr hb⟩
          · rintro ⟨ha, h | h⟩
            · exact absurd h hw
            · exact ⟨ha, h⟩

theorem relaxNbrs_spec (u : Nat) (vs : List Int) (d : Nat → Int)
    (hu : d u ≠ UNREACHED)
    (hno : d u + 1 = UNREACHED → ∀ v ∈ vs, d v.toNat ≠ UNREACHED) :
    (∀ w, (relaxNbrs u d vs).1 w =
      if d w = UNREACHED ∧ w ∈ vs.map Int.toNat then d u + 1 else d w) ∧
    (∀ w, w ∈ (relaxNbrs u d vs).2 ↔
      (d w = UNREACHED ∧ w ∈ vs.map Int.toNat)) ∧
    (relaxNbrs u d vs).2.Nodup := by
  by_cases hU : d u + 1 = UNREACHED
  · have h := hno hU
    rw [relaxNbrs_none u d vs h]
    refine ⟨?_, ?_, List.nodup_nil⟩
    · intro w
      by_cases hw : d w = UNREACHED ∧ w ∈ vs.map Int.toNat
      · rcases List.mem_map.1 hw.2 with ⟨v, hv, rfl⟩
        exact absurd hw.1 (h v hv)
      · rw [if_neg hw]
    · intro w
      constructor
      · intro h'
        exact absurd h' (List.not_mem_nil w)
      · rintro ⟨hw1, hw2⟩
        rcases List.mem_map.1 hw2 with ⟨v, hv, rfl⟩
        exact absurd hw1 (h v hv)
  · exact relaxNbrs_spec_aux u vs d hu hU

theorem relaxOne_spec (g : Graph) (d : Nat → Int) (u : Nat)
    (hu : d u ≠ UNREACHED)
    (hno : d u + 1 = UNREACHED → ∀ v ∈ g.nbrsN u, d v ≠ UNREACHED) :
    (∀ w, (relaxOne g d u).1 w =
      if d w = UNREACHED ∧ w ∈ g.nbrsN u then d u + 1 else d w) ∧
    (∀ w, w ∈ (relaxOne g d u).2 ↔ (d w = UNREACHED ∧ w ∈ g.nbrsN u)) ∧
    (relaxOne g d u).2.Nodup := by
  have hno' : d u + 1 = UNREACHED → ∀ v ∈ g.nbrs u, d v.toNat ≠ UNREACHED := by
    intro h v hv
    exact hno h v.toNat (List.mem_map_of_mem _ hv)
  have h := relaxNbrs_spec u (g.nbrs u) d hu hno'
  simpa only [relaxOne, Graph.nbrsN] using h

end RelaxLemmas

section MinDistLemmas

theorem minDist_unique {g : Graph} {s n m v : Nat} (h1 : MinDist g s n v)
    (h2 : MinDist g s m v) : n = m :=
  le_antisymm (h1.2 m h2.1) (h2.2 n h1.1)

theorem exists_minDist {g : Graph} {s n v : Nat} (h : ReachN g s n v) :
    ∃ m, MinDist g s m v := by
  induction n using Nat.strong_induction_on with
  | _ n ih =>
    by_cases h' : ∃ m, m < n ∧ ReachN g s m v
    · rcases h' with ⟨m, hm, hr⟩
      exact ih m hm hr
    · refine ⟨n, h, fun m hm => ?_⟩
      by_contra hlt
      exact h' ⟨m, Nat.lt_of_not_le hlt, hm⟩

theorem minDist_pred {g : Graph} {s n v : Nat} (h : MinDist g s (n + 1) v) :
    ∃ u, MinDist g s n u ∧ v ∈ g.nbrsN u := by
  obtain ⟨hr, hmin⟩ := h
  cases hr with
  | succ hu hv =>
    rename_i u
    rcases exists_minDist hu with ⟨k, hk⟩
    have h1 : k ≤ n := hk.2 n hu
    have h2 : n + 1 ≤ k + 1 := hmin (k + 1) (ReachN.succ hk.1 hv)
    have hkn : k = n := by omega
    subst hkn
    exact ⟨u, hk, hv⟩

theorem reach_lt_V {g : Graph} (hwf : g.csrWF) {s : Nat}
    (hs : s < g.vertex_count) {n v : Nat} (h : ReachN g s n v) :
    v < g.vertex_count := by
  induction h with
  | zero => exact hs
  | succ hr hv ih => exact Graph.nbrsN_lt hwf hv

theorem minDist_levels {g : Graph} {s : Nat} :
    ∀ n v, MinDist g s n v → ∀ j, j ≤ n → ∃ u, MinDist g s j u := by
  intro n
  induction n with
  | zero =>
    intro v h j hj
    rcases Nat.le_zero.1 hj with rfl
    exact ⟨v, h⟩
  | succ n ih =>
    intro v h j hj
    rcases Nat.eq_or_lt_of_le hj with rfl | hlt
    · exact ⟨v, h⟩
    · rcases minDist_pred h with ⟨u, hu, _⟩
      exact ih u hu j (Nat.lt_succ_iff.1 hlt)

theorem minDist_lt_V {g : Graph} (hwf : g.csrWF) {s : Nat}
    (hs : s < g.vertex_count) {n v : Nat} (h : MinDist g s n v) :
    n < g.vertex_count := by
  classical
  have hlev := minDist_levels n v h
  have key : ∀ j : Nat, ∃ u, j ≤ n → MinDist g s j u := by
    intro j
    by_cases hj : j ≤ n
    · rcases hlev j hj with ⟨u, hu⟩
      exact ⟨u, fun _ => hu⟩
    · exact ⟨0, fun h' => absurd h' hj⟩
  choose w hw using key
  have hmaps : ∀ j ∈ Finset.range (n + 1), w j ∈ Finset.range g.vertex_count := by
    intro j hj
    have hj' : j ≤ n := Nat.lt_succ_iff.1 (Finset.mem_range.1 hj)
    exact Finset.mem_range.2 (reach_lt_V hwf hs (hw j hj').1)
  have hinj : Set.InjOn w (Finset.range (n + 1)) := by
    intro a ha b hb hab
    simp only [Finset.coe_range, Set.mem_Iio] at ha hb
    have h1 := hw a (Nat.lt_succ_iff.1 ha)
    have h2 := hw b (Nat.lt_succ_iff.1 hb)
    rw [hab] at h1
    exact minDist_unique h1 h2
  have hcard := Finset.card_le_card_of_injOn w hmaps hinj
  simpa using hcard

end MinDistLemmas

section CountULemmas

theorem countU_lt (V : Nat) {d d' : Nat → Int}
    (hmono : ∀ w, d' w = UNREACHED → d w = UNREACHED)
    {w0 : Nat} (h0 : w0 < V) (h1 : d w0 = UNREACHED)
    (h2 : d' w0 ≠ UNREACHED) :
    countU V d' < countU V d := by
  apply Finset.card_lt_card
  constructor
  · intro x hx
    simp only [Finset.mem_filter, Finset.mem_range] at hx ⊢
    exact ⟨hx.1, hmono x hx.2⟩
  · intro hsub
    have := hsub (Finset.mem_filter.2 ⟨Finset.mem_range.2 h0, h1⟩)
    exact h2 (Finset.mem_filter.1 this).2

theorem countU_drop (V : Nat) {d d' : Nat → Int} (newly : List Nat)
    (hnd : newly.Nodup)
    (hmem : ∀ w ∈ newly, w < V ∧ d w = UNREACHED ∧ d' w ≠ UNREACHED)
    (hmono : ∀ w, d' w = UNREACHED → d w = UNREACHED) :
    countU V d' + newly.length ≤ countU V d := by
  have hsub : (Finset.range V).filter (fun i => d' i = UNREACHED) ⊆
      ((Finset.range V).filter fun i => d i = UNREACHED) \ newly.toFinset := by
    intro x hx
    simp only [Finset.mem_filter, Finset.mem_range, Finset.mem_sdiff,
      List.mem_toFinset] at hx ⊢
    exact ⟨⟨hx.1, hmono x hx.2⟩, fun hxn => (hmem x hxn).2.2 hx.2⟩
  have hsub2 : newly.toFinset ⊆
      (Finset.range V).filter fun i => d i = UNREACHED := by
    intro x hx
    rw [List.mem_toFinset] at hx
    rcases hmem x hx with ⟨hx1, hx2, _⟩
    exact Finset.mem_filter.2 ⟨Finset.mem_range.2 hx1, hx2⟩
  calc countU V d' + newly.length
      ≤ (((Finset.range V).filter fun i => d i = UNREACHED) \
          newly.toFinset).card + newly.length :=
        Nat.add_le_add_right (Finset.card_le_card hsub) _
    _ = (((Finset.range V).filter fun i => d i = UNREACHED) \
          newly.toFinset).card + newly.toFinset.card := by
        rw [List.toFinset_card_of_nodup hnd]
    _ = countU V d := Finset.card_sdiff_add_card_eq_card hsub2

end CountULemmas

section SortDedupLemmas

theorem uniqueAdjAux_mem (w : Nat) :
    ∀ (t : List Nat) (a : Nat), w ∈ a :: uniqueAdjAux a t ↔ w ∈ a :: t := by
  intro t
  induction t with
  | nil =>
    intro a
    simp [uniqueAdjAux]
  | cons b t ih =>
    intro a
    by_cases hab : b = a
    · subst hab
      simp only [uniqueAdjAux, if_pos rfl]
      have h1 := ih b
      simp only [List.mem_cons] at h1 ⊢
      tauto
    · simp only [uniqueAdjAux, if_neg hab]
      have h1 := ih b
      simp only [List.mem_cons] at h1 ⊢
      tauto

theorem uniqueAdj_mem (w : Nat) (l : List Nat) : w ∈ uniqueAdj l ↔ w ∈ l := by
  cases l with
  | nil => simp [uniqueAdj]
  | cons a t =>
    simp only [uniqueAdj]
    exact uniqueAdjAux_mem w t a

theorem sortDedup_mem (w : Nat) (l : List Nat) : w ∈ sortDedup l ↔ w ∈ l := by
  rw [sortDedup, uniqueAdj_mem, sortNat]
  exact (List.perm_insertionSort (· ≤ ·) l).mem_iff

end SortDedupLemmas

section MinDistExtras

theorem reachN_zero_iff {g : Graph} {s v : Nat} : ReachN g s 0 v ↔ v = s := by
  constructor
  · intro h
    cases h
    rfl
  · rintro rfl
    exact ReachN.zero

theorem minDist_zero_s {g : Graph} {s : Nat} : MinDist g s 0 s :=
  ⟨ReachN.zero, fun m _ => Nat.zero_le m⟩

theorem minDist_zero_iff {g : Graph} {s v : Nat} : MinDist g s 0 v ↔ v = s := by
  constructor
  · intro h
    exact reachN_zero_iff.1 h.1
  · rintro rfl
    exact minDist_zero_s

theorem minDist_cast_lt_U {g : Graph} (hwf : g.csrWF) {s : Nat}
    (hs : s < g.vertex_count) {n v : Nat} (h : MinDist g s n v) :
    (n : Int) < UNREACHED := by
  have h1 : n < g.vertex_count := minDist_lt_V hwf hs h
  have h2 : (g.vertex_count : Int) ≤ INT_MAX := hwf.2.2.2.2.2
  have h3 : (n : Int) < (g.vertex_count : Int) := Int.ofNat_lt.2 h1
  unfold UNREACHED
  omega

theorem no_deeper {g : Graph} {s k : Nat} (h : ∀ v, ¬ MinDist g s k v) :
    ∀ m v, ¬ MinDist g s (k + m) v := by
  intro m
  induction m with
  | zero => simpa using h
  | succ m ihm =>
    intro v hv
    rcases minDist_pred hv with ⟨u, hu, _⟩
    exact ihm u hu

end MinDistExtras

section TdProcessLemmas

theorem tdProcess_spec (g : Graph) (k : Int) :
    ∀ (f : List Nat) (d : Nat → Int),
      (∀ u ∈ f, d u = k) → k ≠ UNREACHED →
      (k + 1 = UNREACHED → ∀ u ∈ f, ∀ w ∈ g.nbrsN u, d w ≠ UNREACHED) →
      (∀ w, (ParallelBFS.tdProcess g d f).1 w =
        if d w = UNREACHED ∧ ∃ u ∈ f, w ∈ g.nbrsN u then k + 1 else d w) ∧
      (∀ w, w ∈ (ParallelBFS.tdProcess g d f).2 ↔
        (d w = UNREACHED ∧ ∃ u ∈ f, w ∈ g.nbrsN u)) := by
  intro f
  induction f with
  | nil =>
    intro d hk hkU hno
    simp [ParallelBFS.tdProcess]
  | cons u f ih =>
    intro d hk hkU hno
    have hu : d u ≠ UNREACHED := by
      rw [hk u (List.mem_cons_self _ _)]
      exact hkU
    have hno1 : d u + 1 = UNREACHED → ∀ w ∈ g.nbrsN u, d w ≠ UNREACHED := by
      intro h w hw
      rw [hk u (List.mem_cons_self _ _)] at h
      exact hno h u (List.mem_cons_self _ _) w hw
    obtain ⟨rd, rm, rn⟩ := relaxOne_spec g d u hu hno1
    have hku : d u = k := hk u (List.mem_cons_self _ _)
    rw [hku] at rd
    set d1 := (relaxOne g d u).1 with hd1def
    have hk1 : ∀ u' ∈ f, d1 u' = k := by
      intro u' hu'
      rw [rd u']
      have : d u' = k := hk u' (List.mem_cons_of_mem _ hu')
      rw [if_neg]
      · exact this
      · intro hc
        rw [this] at hc
        exact hkU hc.1
    have hno2 : k + 1 = UNREACHED → ∀ u' ∈ f, ∀ w ∈ g.nbrsN u', d1 w ≠ UNREACHED := by
      intro h u' hu' w hw
      have hdw : d w ≠ UNREACHED := hno h u' (List.mem_cons_of_mem _ hu') w hw
      rw [rd w, if_neg]
      · exact hdw
      · intro hc
        exact hdw hc.1
    obtain ⟨ihd, ihm⟩ := ih d1 hk1 hkU hno2
    have key : ParallelBFS.tdProcess g d (u :: f) =
        ((ParallelBFS.tdProcess g d1 f).1,
         (relaxOne g d u).2 ++ (ParallelBFS.tdProcess g d1 f).2) := by
      simp only [ParallelBFS.tdProcess]
    rw [key]
    constructor
    · intro w
      rw [ihd w, rd w]
      by_cases hc1 : d w = UNREACHED ∧ w ∈ g.nbrsN u
      · have hk1U : k + 1 ≠ UNREACHED := by
          intro h
          exact hno h u (List.mem_cons_self _ _) w hc1.2 hc1.1
        rw [if_pos hc1, if_neg (fun hc => hk1U hc.1),
          if_pos ⟨hc1.1, u, List.mem_cons_self _ _, hc1.2⟩]
      · rw [if_neg hc1]
        by_cases hc2 : d w = UNREACHED ∧ ∃ u' ∈ f, w ∈ g.nbrsN u'
        · rw [if_pos hc2]
          rcases hc2.2 with ⟨u', hu', hw⟩
          rw [if_pos ⟨hc2.1, u', List.mem_cons_of_mem _ hu', hw⟩]
        · rw [if_neg hc2, if_neg]
          intro hc
          rcases hc.2 with ⟨u', hu', hw⟩
          rcases List.mem_cons.1 hu' with rfl | hu'
          · exact hc1 ⟨hc.1, hw⟩
          · exact hc2 ⟨hc.1, u', hu', hw⟩
    · intro w
      rw [List.mem_append, rm w, ihm w, rd w]
      constructor
      · rintro (⟨ha, hb⟩ | ⟨ha, u', hu', hw⟩)
        · exact ⟨ha, u, List.mem_cons_self _ _, hb⟩
        · by_cases hc1 : d w = UNREACHED ∧ w ∈ g.nbrsN u
          · rw [if_pos hc1] at ha
            exact ⟨hc1.1, u', List.mem_cons_of_mem _ hu', hw⟩
          · rw [if_neg hc1] at ha
            exact ⟨ha, u', List.mem_cons_of_mem _ hu', hw⟩
      · rintro ⟨ha, u', hu', hw⟩
        rcases List.mem_cons.1 hu' with rfl | hu'
        · exact Or.inl ⟨ha, hw⟩
        · by_cases hc1 : d w = UNREACHED ∧ w ∈ g.nbrsN u
          · exact Or.inl hc1
          · refine Or.inr ⟨?_, u', hu', hw⟩
            rw [if_neg hc1]
            exact ha

end TdProcessLemmas

/-- Invariant of the level loop of ParallelBFS::optimized after k levels:
claimed cells carry their true BFS level, everything within distance k is
claimed, and the frontier is exactly the set of vertices at distance k. -/
def LevelInv (g : Graph) (s k : Nat) (d : Nat → Int) (f : List Nat) : Prop :=
  (∀ v, d v ≠ UNREACHED → ∃ j, j ≤ k ∧ MinDist g s j v ∧ d v = (j : Int)) ∧
  (∀ v j, j ≤ k → MinDist g s j v → d v = (j : Int)) ∧
  (∀ v, v ∈ f ↔ MinDist g s k v)

/-- Postcondition shared by both single-source kernels: the distance vector
is the canonical BFS distance function of the graph and source. -/
def BfsPost (g : Graph) (s : Nat) (d : Nat → Int) : Prop :=
  (∀ v, d v ≠ UNREACHED → ∃ j, MinDist g s j v ∧ d v = (j : Int)) ∧
  (∀ v j, MinDist g s j v → d v = (j : Int))

section OptimizedCorrect

theorem levelInv_done {g : Graph} {s k : Nat} {d : Nat → Int}
    (hJ : LevelInv g s k d []) : BfsPost g s d := by
  obtain ⟨h1, h2, h3⟩ := hJ
  have hnone : ∀ v, ¬ MinDist g s k v := by
    intro v hv
    exact (List.not_mem_nil v) ((h3 v).2 hv)
  refine ⟨fun v hv => ?_, fun v j hj => ?_⟩
  · rcases h1 v hv with ⟨j, hjk, hmd, hval⟩
    exact ⟨j, hmd, hval⟩
  · by_cases hjk : j ≤ k
    · exact h2 v j hjk hj
    · exfalso
      have heq : j = k + (j - k) := by omega
      rw [heq] at hj
      exact no_deeper hnone (j - k) v hj

theorem bfsPost_unique {g : Graph} {s : Nat} {da db : Nat → Int}
    (h1 : BfsPost g s da) (h2 : BfsPost g s db) : ∀ v, da v = db v := by
  intro v
  by_cases hv : Reaches g s v
  · rcases hv with ⟨n, hn⟩
    rcases exists_minDist hn with ⟨m, hm⟩
    rw [h1.2 v m hm, h2.2 v m hm]
  · have e1 : da v = UNREACHED := by
      by_contra h
      rcases h1.1 v h with ⟨j, hj, _⟩
      exact hv ⟨j, hj.1⟩
    have e2 : db v = UNREACHED := by
      by_contra h
      rcases h2.1 v h with ⟨j, hj, _⟩
      exact hv ⟨j, hj.1⟩
    rw [e1, e2]

theorem optLoop_correct (g : Graph) (hwf : g.csrWF) {s : Nat}
    (hs : s < g.vertex_count) :
    ∀ (fuel k : Nat) (d : Nat → Int) (f : List Nat), LevelInv g s k d f →
      (1 + countU g.vertex_count d ≤ fuel ∨ f = []) →
      BfsPost g s (ParallelBFS.optLoop g fuel f d).1 ∧
      (ParallelBFS.optLoop g fuel f d).2 = [] := by
  intro fuel
  induction fuel with
  | zero =>
    intro k d f hJ hfuel
    have hf : f = [] := by
      rcases hfuel with h | h
      · omega
      · exact h
    subst hf
    exact ⟨levelInv_done hJ, rfl⟩
  | succ fuel ih =>
    intro k d f hJ hfuel
    cases f with
    | nil => exact ⟨levelInv_done hJ, rfl⟩
    | cons u f' =>
      obtain ⟨h1, h2, h3⟩ := hJ
      have hmemF : ∀ u' ∈ u :: f', MinDist g s k u' := fun u' hu' => (h3 u').1 hu'
      have hmdu : MinDist g s k u := hmemF u (List.mem_cons_self _ _)
      have hkU : (k : Int) ≠ UNREACHED := ne_of_lt (minDist_cast_lt_U hwf hs hmdu)
      have hdF : ∀ u' ∈ u :: f', d u' = (k : Int) := fun u' hu' =>
        h2 u' k (le_refl k) (hmemF u' hu')
      have hno : (k : Int) + 1 = UNREACHED →
          ∀ u' ∈ u :: f', ∀ w ∈ g.nbrsN u', d w ≠ UNREACHED := by
        intro hkk u' hu' w hw hdw
        have hnotle : ∀ j, j ≤ k → ¬ MinDist g s j w := by
          intro j hj hmd
          have hval := h2 w j hj hmd
          rw [hval] at hdw
          exact (ne_of_lt (minDist_cast_lt_U hwf hs hmd)) hdw
        have hreach : ReachN g s (k + 1) w := ReachN.succ (hmemF u' hu').1 hw
        rcases exists_minDist hreach with ⟨m, hm⟩
        have hmle : m ≤ k + 1 := hm.2 _ hreach
        have hmk : m = k + 1 := by
          rcases Nat.lt_or_ge m (k + 1) with h | h
          · exact absurd hm (hnotle m (by omega))
          · omega
        subst hmk
        have hlt := minDist_cast_lt_U hwf hs hm
        push_cast at hlt
        omega
      obtain ⟨td, tm⟩ := tdProcess_spec g (k : Int) (u :: f') d hdF hkU hno
      have hset : ∀ w, (d w = UNREACHED ∧ ∃ u' ∈ u :: f', w ∈ g.nbrsN u') ↔
          MinDist g s (k + 1) w := by
        intro w
        constructor
        · rintro ⟨hdw, u', hu', hw⟩
          have hnotle : ∀ j, j ≤ k → ¬ MinDist g s j w := by
            intro j hj hmd
            have hval := h2 w j hj hmd
            rw [hval] at hdw
            exact (ne_of_lt (minDist_cast_lt_U hwf hs hmd)) hdw
          have hreach : ReachN g s (k + 1) w := ReachN.succ (hmemF u' hu').1 hw
          rcases exists_minDist hreach with ⟨m, hm⟩
          have hmle : m ≤ k + 1 := hm.2 _ hreach
          have hmk : m = k + 1 := by
            rcases Nat.lt_or_ge m (k + 1) with h | h
            · exact absurd hm (hnotle m (by omega))
            · omega
          subst hmk
          exact hm
        · intro hmd
          rcases minDist_pred hmd with ⟨u', hu', hw⟩
          refine ⟨?_, u', (h3 u').2 hu', hw⟩
          by_contra hdw
          rcases h1 w hdw with ⟨j, hjk, hmd', hval⟩
          have := minDist_unique hmd hmd'
          omega
      have hinv' : LevelInv g s (k + 1)
          (ParallelBFS.tdProcess g d (u :: f')).1
          (sortDedup (ParallelBFS.tdProcess g d (u :: f')).2) := by
        refine ⟨?_, ?_, ?_⟩
        · intro v hv
          rw [td v] at hv ⊢
          by_cases hc : d v = UNREACHED ∧ ∃ u' ∈ u :: f', v ∈ g.nbrsN u'
          · rw [if_pos hc] at hv ⊢
            refine ⟨k + 1, le_refl _, (hset v).1 hc, ?_⟩
            push_cast
            rfl
          · rw [if_neg hc] at hv ⊢
            rcases h1 v hv with ⟨j, hjk, hmd, hval⟩
            exact ⟨j, by omega, hmd, hval⟩
        · intro v j hj hmd
          rw [td v]
          rcases Nat.lt_or_ge j (k + 1) with hjk | hjk
          · have hjk' : j ≤ k := by omega
            have hval := h2 v j hjk' hmd
            rw [if_neg, hval]
            intro hc
            rw [hval] at hc
            exact (ne_of_lt (minDist_cast_lt_U hwf hs hmd)) hc.1
          · have hj1 : j = k + 1 := by omega
            subst hj1
            rw [if_pos ((hset v).2 hmd)]
            push_cast
            rfl
        · intro v
          rw [sortDedup_mem, tm v]
          exact hset v
      have hstep : ParallelBFS.optLoop g (fuel + 1) (u :: f') d =
          ParallelBFS.optLoop g fuel
            (sortDedup (ParallelBFS.tdProcess g d (u :: f')).2)
            (ParallelBFS.tdProcess g d (u :: f')).1 := rfl
      rw [hstep]
      by_cases hnx : (ParallelBFS.tdProcess g d (u :: f')).2 = []
      · refine ih (k + 1) _ _ hinv' (Or.inr ?_)
        rw [hnx]
        rfl
      · obtain ⟨w0, hw0⟩ : ∃ w0, w0 ∈ (ParallelBFS.tdProcess g d (u :: f')).2 :=
          List.exists_mem_of_ne_nil _ hnx
        have hw0' := (tm w0).1 hw0
        have hmd0 : MinDist g s (k + 1) w0 := (hset w0).1 hw0'
        have hw0V : w0 < g.vertex_count := reach_lt_V hwf hs hmd0.1
        have hd1w0 : (ParallelBFS.tdProcess g d (u :: f')).1 w0 ≠ UNREACHED := by
          rw [td w0, if_pos hw0']
          have hlt := minDist_cast_lt_U hwf hs hmd0
          push_cast at hlt
          omega
        have hmono : ∀ w, (ParallelBFS.tdProcess g d (u :: f')).1 w = UNREACHED →
            d w = UNREACHED := by
          intro w hw
          by_cases hc : d w = UNREACHED ∧ ∃ u' ∈ u :: f', w ∈ g.nbrsN u'
          · exact hc.1
          · rw [td w, if_neg hc] at hw
            exact hw
        have hcnt : countU g.vertex_count (ParallelBFS.tdProcess g d (u :: f')).1 <
            countU g.vertex_count d :=
          countU_lt _ hmono hw0V hw0'.1 hd1w0
        have hfuel' : 1 + countU g.vertex_count (ParallelBFS.tdProcess g d (u :: f')).1 ≤
            fuel := by
          rcases hfuel with h | h
          · omega
          · simp at h
        exact ih (k + 1) _ _ hinv' (Or.inl hfuel')

theorem optimized_correct (g : Graph) (hwf : g.csrWF) {s : Nat}
    (hs : s < g.vertex_count) :
    BfsPost g s (ParallelBFS.optimized g s).1 ∧
    (ParallelBFS.optimized g s).2 = [] := by
  have hinv : LevelInv g s 0 (ParallelBFS.initDist s) [s] := by
    refine ⟨?_, ?_, ?_⟩
    · intro v hv
      by_cases hvs : v = s
      · subst hvs
        refine ⟨0, le_refl _, minDist_zero_s, ?_⟩
        simp [ParallelBFS.initDist]
      · unfold ParallelBFS.initDist at hv
        rw [if_neg hvs] at hv
        exact absurd rfl hv
    · intro v j hj hmd
      have hj0 : j = 0 := Nat.le_zero.1 hj
      subst hj0
      have hvs : v = s := minDist_zero_iff.1 hmd
      subst hvs
      simp [ParallelBFS.initDist]
    · intro v
      rw [List.mem_singleton]
      exact minDist_zero_iff.symm
  have hcnt : countU g.vertex_count (ParallelBFS.initDist s) ≤ g.vertex_count := by
    unfold countU
    calc ((Finset.range g.vertex_count).filter fun i =>
          ParallelBFS.initDist s i = UNREACHED).card
        ≤ (Finset.range g.vertex_count).card := Finset.card_filter_le _ _
      _ = g.vertex_count := Finset.card_range _
  exact optLoop_correct g hwf hs (g.vertex_count + 1) 0 _ [s] hinv (Or.inl (by omega))

end OptimizedCorrect

/-- Invariant of the FIFO queue of ParallelBFS::baseline: the queue splits
into the still-unprocessed tail A of level j followed by the
already-discovered part B of level j+1; the claimed cells are exactly the
levels up to j plus B, every claimed cell carries its true level, and every
level-(j+1) vertex is already discovered or has a parent pending in A. -/
def QInv (g : Graph) (s j : Nat) (A B : List Nat) (d : Nat → Int) : Prop :=
  (∀ u ∈ A, MinDist g s j u) ∧
  (∀ u ∈ B, MinDist g s (j + 1) u) ∧
  (∀ v, d v ≠ UNREACHED ↔ ((∃ i, i ≤ j ∧ MinDist g s i v) ∨ v ∈ B)) ∧
  (∀ v, d v ≠ UNREACHED → ∃ i, MinDist g s i v ∧ d v = (i : Int)) ∧
  (∀ v, MinDist g s (j + 1) v → v ∈ B ∨ ∃ u ∈ A, v ∈ g.nbrsN u)

section BaselineCorrect

theorem QInv_shift {g : Graph} {s j : Nat} {B : List Nat} {d : Nat → Int}
    (h : QInv g s j [] B d) : QInv g s (j + 1) B [] d := by
  obtain ⟨ha, hb, hc, hd, he⟩ := h
  refine ⟨hb, ?_, ?_, hd, ?_⟩
  · intro u hu
    exact absurd hu (List.not_mem_nil u)
  · intro v
    rw [hc v]
    constructor
    · rintro (⟨i, hij, hmd⟩ | hvB)
      · exact Or.inl ⟨i, by omega, hmd⟩
      · exact Or.inl ⟨j + 1, le_refl _, hb v hvB⟩
    · rintro (⟨i, hij, hmd⟩ | hvB)
      · rcases Nat.lt_or_ge i (j + 1) with hlt | hge
        · exact Or.inl ⟨i, by omega, hmd⟩
        · have hie : i = j + 1 := by omega
          subst hie
          rcases he v hmd with hvB | ⟨u, hu, _⟩
          · exact Or.inr hvB
          · exact absurd hu (List.not_mem_nil u)
      · exact absurd hvB (List.not_mem_nil v)
  · intro v hmd
    rcases minDist_pred hmd with ⟨u, hu, hvu⟩
    rcases he u hu with huB | ⟨u', hu', _⟩
    · exact Or.inr ⟨u, huB, hvu⟩
    · exact absurd hu' (List.not_mem_nil u')

theorem QInv_done {g : Graph} {s j : Nat} {d : Nat → Int}
    (h : QInv g s j [] [] d) : BfsPost g s d := by
  obtain ⟨ha, hb, hc, hd, he⟩ := h
  have hnone : ∀ v, ¬ MinDist g s (j + 1) v := by
    intro v hv
    rcases he v hv with h' | ⟨u, hu, _⟩
    · exact absurd h' (List.not_mem_nil v)
    · exact absurd hu (List.not_mem_nil u)
  refine ⟨hd, fun v i hmd => ?_⟩
  by_cases hij : i ≤ j
  · have hdv : d v ≠ UNREACHED := (hc v).2 (Or.inl ⟨i, hij, hmd⟩)
    rcases hd v hdv with ⟨i', hmd', hval⟩
    have hii := minDist_unique hmd' hmd
    subst hii
    exact hval
  · exfalso
    have heq : i = (j + 1) + (i - (j + 1)) := by omega
    rw [heq] at hmd
    exact no_deeper hnone _ v hmd

theorem QInv_process (g : Graph) (hwf : g.csrWF) {s : Nat}
    (hs : s < g.vertex_count) {j u : Nat} {A B : List Nat} {d : Nat → Int}
    (h : QInv g s j (u :: A) B d) :
    QInv g s j A (B ++ (relaxOne g d u).2) (relaxOne g d u).1 ∧
    (relaxOne g d u).2.Nodup ∧
    (∀ w ∈ (relaxOne g d u).2,
      w < g.vertex_count ∧ d w = UNREACHED ∧ (relaxOne g d u).1 w ≠ UNREACHED) ∧
    (∀ w, (relaxOne g d u).1 w = UNREACHED → d w = UNREACHED) := by
  obtain ⟨ha, hb, hc, hd, he⟩ := h
  have hmdu : MinDist g s j u := ha u (List.mem_cons_self _ _)
  have hdu : d u = (j : Int) := by
    have hdu' : d u ≠ UNREACHED := (hc u).2 (Or.inl ⟨j, le_refl _, hmdu⟩)
    rcases hd u hdu' with ⟨i, hmd', hval⟩
    have hij := minDist_unique hmd' hmdu
    subst hij
    exact hval
  have hjU : (j : Int) ≠ UNREACHED := ne_of_lt (minDist_cast_lt_U hwf hs hmdu)
  have hdune : d u ≠ UNREACHED := by
    rw [hdu]
    exact hjU
  have hnbr : ∀ w ∈ g.nbrsN u, d w = UNREACHED → MinDist g s (j + 1) w := by
    intro w hw hdw
    have hnotle : ∀ i, i ≤ j → ¬ MinDist g s i w := by
      intro i hij hmd
      have hne : d w ≠ UNREACHED := (hc w).2 (Or.inl ⟨i, hij, hmd⟩)
      exact hne hdw
    have hreach : ReachN g s (j + 1) w := ReachN.succ hmdu.1 hw
    rcases exists_minDist hreach with ⟨m, hm⟩
    have hmle : m ≤ j + 1 := hm.2 _ hreach
    have hmj : m = j + 1 := by
      rcases Nat.lt_or_ge m (j + 1) with hlt | hge
      · exact absurd hm (hnotle m (by omega))
      · omega
    subst hmj
    exact hm
  have hno : d u + 1 = UNREACHED → ∀ w ∈ g.nbrsN u, d w ≠ UNREACHED := by
    intro hU w hw hdw
    have hmd := hnbr w hw hdw
    have hlt := minDist_cast_lt_U hwf hs hmd
    rw [hdu] at hU
    push_cast at hlt
    omega
  obtain ⟨rd, rm, rn⟩ := relaxOne_spec g d u hdune hno
  rw [hdu] at rd
  have hnewU : ∀ w ∈ (relaxOne g d u).2, (relaxOne g d u).1 w ≠ UNREACHED := by
    intro w hw
    have hcond := (rm w).1 hw
    have hmd := hnbr w hcond.2 hcond.1
    rw [rd w, if_pos hcond]
    have hlt := minDist_cast_lt_U hwf hs hmd
    push_cast at hlt
    omega
  have hmono : ∀ w, (relaxOne g d u).1 w = UNREACHED → d w = UNREACHED := by
    intro w hw
    by_cases hcond : d w = UNREACHED ∧ w ∈ g.nbrsN u
    · exact hcond.1
    · rw [rd w, if_neg hcond] at hw
      exact hw
  refine ⟨⟨?_, ?_, ?_, ?_, ?_⟩, rn, ?_, hmono⟩
  · intro u' hu'
    exact ha u' (List.mem_cons_of_mem _ hu')
  · intro w hw
    rcases List.mem_append.1 hw with hwB | hwN
    · exact hb w hwB
    · have hcond := (rm w).1 hwN
      exact hnbr w hcond.2 hcond.1
  · intro v
    constructor
    · intro hv
      by_cases hcond : d v = UNREACHED ∧ v ∈ g.nbrsN u
      · exact Or.inr (List.mem_append.2 (Or.inr ((rm v).2 hcond)))
      · rw [rd v, if_neg hcond] at hv
        rcases (hc v).1 hv with hle | hvB
        · exact Or.inl hle
        · exact Or.inr (List.mem_append.2 (Or.inl hvB))
    · rintro (⟨i, hij, hmd⟩ | hvBN)
      · have hdv : d v ≠ UNREACHED := (hc v).2 (Or.inl ⟨i, hij, hmd⟩)
        rw [rd v, if_neg]
        · exact hdv
        · intro hcond
          exact hdv hcond.1
      · rcases List.mem_append.1 hvBN with hvB | hvN
        · have hdv : d v ≠ UNREACHED := (hc v).2 (Or.inr hvB)
          rw [rd v, if_neg]
          · exact hdv
          · intro hcond
            exact hdv hcond.1
        · exact hnewU v hvN
  · intro v hv
    by_cases hcond : d v = UNREACHED ∧ v ∈ g.nbrsN u
    · have hmd := hnbr v hcond.2 hcond.1
      refine ⟨j + 1, hmd, ?_⟩
      rw [rd v, if_pos hcond]
      push_cast
      rfl
    · rw [rd v, if_neg hcond] at hv ⊢
      exact hd v hv
  · intro v hmd
    rcases he v hmd with hvB | ⟨u', hu', hvu⟩
    · exact Or.inl (List.mem_append.2 (Or.inl hvB))
    · rcases List.mem_cons.1 hu' with rfl | huA
      · by_cases hdv : d v = UNREACHED
        · exact Or.inl (List.mem_append.2 (Or.inr ((rm v).2 ⟨hdv, hvu⟩)))
        · rcases (hc v).1 hdv with ⟨i, hij, hmd'⟩ | hvB
          · have := minDist_unique hmd hmd'
            omega
          · exact Or.inl (List.mem_append.2 (Or.inl hvB))
      · exact Or.inr ⟨u', huA, hvu⟩
  · intro w hw
    have hcond := (rm w).1 hw
    exact ⟨Graph.nbrsN_lt hwf hcond.2, hcond.1, hnewU w hw⟩

theorem baselineLoop_correct (g : Graph) (hwf : g.csrWF) {s : Nat}
    (hs : s < g.vertex_count) :
    ∀ (fuel : Nat) (q : List Nat) (d : Nat → Int),
      (∃ j A B, q = A ++ B ∧ QInv g s j A B d) →
      q.length + countU g.vertex_count d ≤ fuel →
      BfsPost g s (ParallelBFS.baselineLoop g fuel q d) := by
  intro fuel
  induction fuel with
  | zero =>
    intro q d hinv hfuel
    have hq : q = [] := by
      cases q with
      | nil => rfl
      | cons a t => simp at hfuel
    subst hq
    rcases hinv with ⟨j, A, B, hq, hJ⟩
    obtain ⟨hA, hB⟩ := List.append_eq_nil.1 hq.symm
    subst hA
    subst hB
    exact QInv_done hJ
  | succ fuel ih =>
    intro q d hinv hfuel
    cases q with
    | nil =>
      rcases hinv with ⟨j, A, B, hq, hJ⟩
      obtain ⟨hA, hB⟩ := List.append_eq_nil.1 hq.symm
      subst hA
      subst hB
      exact QInv_done hJ
    | cons u q' =>
      rcases hinv with ⟨j, A, B, hq, hJ⟩
      have hstep : ParallelBFS.baselineLoop g (fuel + 1) (u :: q') d =
          ParallelBFS.baselineLoop g fuel (q' ++ (relaxOne g d u).2)
            (relaxOne g d u).1 := rfl
      rw [hstep]
      cases A with
      | nil =>
        simp only [List.nil_append] at hq
        subst hq
        have hJ2 : QInv g s (j + 1) (u :: q') [] d := QInv_shift hJ
        obtain ⟨hJ3, hnd, hmem, hmono⟩ := QInv_process g hwf hs hJ2
        apply ih
        · exact ⟨j + 1, q', [] ++ (relaxOne g d u).2, rfl, hJ3⟩
        · have hdrop := countU_drop g.vertex_count (relaxOne g d u).2 hnd hmem hmono
          simp only [List.length_append, List.length_cons] at hfuel ⊢
          omega
      | cons u2 A' =>
        rw [List.cons_append] at hq
        injection hq with hq1 hq2
        subst hq1
        obtain ⟨hJ3, hnd, hmem, hmono⟩ := QInv_process g hwf hs hJ
        apply ih
        · refine ⟨j, A', B ++ (relaxOne g d u).2, ?_, hJ3⟩
          rw [hq2, List.append_assoc]
        · have hdrop := countU_drop g.vertex_count (relaxOne g d u).2 hnd hmem hmono
          simp only [List.length_append, List.length_cons] at hfuel ⊢
          omega

theorem QInv_init (g : Graph) (s : Nat) :
    QInv g s 0 [s] [] (ParallelBFS.initDist s) := by
  have h0U : (0 : Int) ≠ UNREACHED := by
    unfold UNREACHED INT_MAX
    decide
  refine ⟨?_, ?_, ?_, ?_, ?_⟩
  · intro u hu
    rw [List.mem_singleton] at hu
    subst hu
    exact minDist_zero_s
  · intro u hu
    exact absurd hu (List.not_mem_nil u)
  · intro v
    constructor
    · intro hv
      unfold ParallelBFS.initDist at hv
      by_cases hvs : v = s
      · subst hvs
        exact Or.inl ⟨0, le_refl _, minDist_zero_s⟩
      · rw [if_neg hvs] at hv
        exact absurd rfl hv
    · rintro (⟨i, hij, hmd⟩ | hvB)
      · have hi0 : i = 0 := Nat.le_zero.1 hij
        subst hi0
        have hvs := minDist_zero_iff.1 hmd
        subst hvs
        unfold ParallelBFS.initDist
        rw [if_pos rfl]
        exact h0U
      · exact absurd hvB (List.not_mem_nil v)
  · intro v hv
    unfold ParallelBFS.initDist at hv ⊢
    by_cases hvs : v = s
    · subst hvs
      refine ⟨0, minDist_zero_s, ?_⟩
      rw [if_pos rfl]
      rfl
    · rw [if_neg hvs] at hv
      exact absurd rfl hv
  · intro v hmd
    rcases minDist_pred hmd with ⟨u, hu, hvu⟩
    have hus := minDist_zero_iff.1 hu
    subst hus
    exact Or.inr ⟨u, List.mem_singleton_self u, hvu⟩

theorem baseline_correct (g : Graph) (hwf : g.csrWF) {s : Nat}
    (hs : s < g.vertex_count) : BfsPost g s (ParallelBFS.baseline g s) := by
  apply baselineLoop_correct g hwf hs (g.vertex_count + 1) [s]
    (ParallelBFS.initDist s)
  · exact ⟨0, [s], [], rfl, QInv_init g s⟩
  · have hcnt : countU g.vertex_count (ParallelBFS.initDist s) ≤
        g.vertex_count := by
      unfold countU
      calc ((Finset.range g.vertex_count).filter fun i =>
            ParallelBFS.initDist s i = UNREACHED).card
          ≤ (Finset.range g.vertex_count).card := Finset.card_filter_le _ _
        _ = g.vertex_count := Finset.card_range _
    simp only [List.length_singleton]
    omega

end BaselineCorrect

/-- A concrete four-vertex path graph, 0 -> 1 -> 2 -> 3, used to instantiate
the theorems on a small input. -/
def pathG4 : Graph := Graph.mk [0, 1, 2, 3, 3] [1, 2, 3]

/-- C1: for every valid CSR graph g and every source s below V, the distance
vector produced by the level-synchronous parallel kernel
ParallelBFS::optimized (serialized) equals, elementwise, the distance
vector produced by the serial oracle ParallelBFS::baseline. -/
theorem C1_optimized_eq_baseline (g : Graph) (s : Nat) (hwf : g.csrWF)
    (hs : s < g.vertex_count) :
    ParallelBFS.get_distances (ParallelBFS.optimized g s).1 g.vertex_count =
    ParallelBFS.get_distances (ParallelBFS.baseline g s) g.vertex_count := by
  have h1 := (optimized_correct g hwf hs).1
  have h2 := baseline_correct g hwf hs
  unfold ParallelBFS.get_distances
  rw [funext (bfsPost_unique h1 h2)]

/-- C1 witness: the equivalence instantiated on the path graph with source
0, both hypotheses discharged by computation. -/
theorem C1_witness :
    ParallelBFS.get_distances (ParallelBFS.optimized pathG4 0).1
      pathG4.vertex_count =
    ParallelBFS.get_distances (ParallelBFS.baseline pathG4 0)
      pathG4.vertex_count :=
  C1_optimized_eq_baseline pathG4 0 (by decide) (by decide)

/-- C4: the serial oracle produces canonical BFS distances: the source ends
at 0, every vertex at shortest-path distance n ends at n, and a vertex ends
at UNREACHED exactly when it is unreachable from the source. -/
theorem C4_baseline_canonical (g : Graph) (s : Nat) (hwf : g.csrWF)
    (hs : s < g.vertex_count) :
    ParallelBFS.baseline g s s = 0 ∧
    (∀ v n, MinDist g s n v → ParallelBFS.baseline g s v = (n : Int)) ∧
    (∀ v, ParallelBFS.baseline g s v = UNREACHED ↔ ¬ Reaches g s v) := by
  have hp := baseline_correct g hwf hs
  refine ⟨?_, ?_, ?_⟩
  · have h := hp.2 s 0 minDist_zero_s
    simpa using h
  · intro v n hmd
    exact hp.2 v n hmd
  · intro v
    constructor
    · intro hU hr
      rcases hr with ⟨n, hn⟩
      rcases exists_minDist hn with ⟨m, hm⟩
      have hval := hp.2 v m hm
      rw [hval] at hU
      exact (ne_of_lt (minDist_cast_lt_U hwf hs hm)) hU
    · intro hnr
      by_contra hU
      rcases hp.1 v hU with ⟨j, hmd, _⟩
      exact hnr ⟨j, hmd.1⟩

/-- C4 witness: the oracle on the path graph with source 0 assigns the
source distance 0. -/
theorem C4_witness : ParallelBFS.baseline pathG4 0 0 = 0 :=
  (C4_baseline_canonical pathG4 0 (by decide) (by decide)).1

/-- C9: a single call to the level-synchronous kernel terminates: within
vertex_count + 1 level iterations the frontier becomes empty, because every
vertex is claimed by a compare-and-swap away from UNREACHED at most once
across the whole run. -/
theorem C9_optimized_terminates (g : Graph) (s : Nat) (hwf : g.csrWF)
    (hs : s < g.vertex_count) :
    (ParallelBFS.optimized g s).2 = [] :=
  (optimized_correct g hwf hs).2

/-- C9 witness: termination on the path graph with source 0. -/
theorem C9_witness : (ParallelBFS.optimized pathG4 0).2 = [] :=
  C9_optimized_terminates pathG4 0 (by decide) (by decide)

section ValidateNeighbors

theorem cppIntOfNat_small {n : Nat} (h : n < 2 ^ 31) :
    cppIntOfNat n = (n : Int) := by
  unfold cppIntOfNat
  rw [Nat.mod_eq_of_lt (show n < 2 ^ 32 by omega)]
  rw [if_pos h]

theorem sizeSub1_eq {n : Nat} (h1 : 1 ≤ n) (h2 : n ≤ 2 ^ 64) :
    sizeSub1 n = n - 1 := by
  unfold sizeSub1
  omega

theorem csrWF_cast (g : Graph) (hwf : g.csrWF) :
    cppIntOfNat (sizeSub1 g.offsets.length) = (g.vertex_count : Int) := by
  have h2 := hwf.1
  have hV : (g.vertex_count : Int) ≤ INT_MAX := hwf.2.2.2.2.2
  have hVn : g.vertex_count < 2 ^ 31 := by
    unfold INT_MAX at hV
    omega
  have hlen : g.offsets.length = g.vertex_count + 1 := by
    unfold Graph.vertex_count
    omega
  rw [sizeSub1_eq (by omega) (by rw [hlen]; omega), hlen]
  rw [show g.vertex_count + 1 - 1 = g.vertex_count from rfl]
  exact cppIntOfNat_small hVn

/-- C5 counterexample: the graph with offsets [2, 0, 2] and edges [0, 0]
passes Graph::validate although its offsets sequence is not monotonically
non-decreasing, so validate does not decide the four claimed invariants. -/
theorem C5_counterexample :
    (Graph.mk [2, 0, 2] [0, 0]).validate = true ∧
    ¬ List.Chain' (· ≤ ·) (Graph.mk [2, 0, 2] [0, 0]).offsets := by
  refine ⟨by decide, fun h => ?_⟩
  have hm := (monoChain_iff [2, 0, 2]).2 h
  revert hm
  decide

/-- C5 amended: under machine-representable sizes, Graph::validate returns
true iff offsets is non-empty, its last entry equals the edge count, and
every edge target lies in [0, V); neither the length at least 2 invariant
nor monotonicity of offsets is checked. -/
theorem C5_validate_iff (g : Graph)
    (hlen : g.offsets.length ≤ 2 ^ 31)
    (hE : g.edges.length < 2 ^ 63)
    (hint : ∀ x ∈ g.offsets, -(2 ^ 31) ≤ x ∧ x < 2 ^ 31) :
    (g.validate = true ↔
      (g.offsets ≠ [] ∧ g.offsets.getLastD 0 = (g.edges.length : Int) ∧
       ∀ v ∈ g.edges, 0 ≤ v ∧ v < (g.vertex_count : Int))) := by
  unfold Graph.validate
  by_cases hemp : g.offsets.isEmpty = true
  · have hnil : g.offsets = [] := List.isEmpty_iff.1 hemp
    rw [if_pos hemp]
    simp [hnil]
  · have hne : g.offsets ≠ [] := by
      intro h
      exact hemp (by rw [h]; rfl)
    rw [if_neg hemp]
    have hmem : g.offsets.getLastD 0 ∈ g.offsets := by
      rw [List.getLastD_eq_getLast?, List.getLast?_eq_getLast _ hne]
      exact List.getLast_mem hne
    have hback := hint _ hmem
    have hbackEq : (cppSizeOfInt (g.offsets.getLastD 0) = g.edges.length) ↔
        g.offsets.getLastD 0 = (g.edges.length : Int) := by
      unfold cppSizeOfInt
      constructor
      · intro h
        omega
      · intro h
        omega
    by_cases hbck : cppSizeOfInt (g.offsets.getLastD 0) ≠ g.edges.length
    · rw [if_pos hbck]
      constructor
      · intro h
        exact absurd h (by decide)
      · intro hcl
        exact absurd (hbackEq.2 hcl.2.1) hbck
    · rw [if_neg hbck]
      push_neg at hbck
      have hlast : g.offsets.getLastD 0 = (g.edges.length : Int) := hbackEq.1 hbck
      have hcast : cppIntOfNat (sizeSub1 g.offsets.length) =
          (g.vertex_count : Int) := by
        have h1 : 1 ≤ g.offsets.length := by
          cases hof : g.offsets with
          | nil => exact absurd hof hne
          | cons a t => simp [hof]
        rw [sizeSub1_eq h1 (by omega)]
        unfold Graph.vertex_count
        exact cppIntOfNat_small (by omega)
      rw [List.all_eq_true]
      constructor
      · intro hall
        refine ⟨hne, hlast, fun v hv => ?_⟩
        have := hall v hv
        rw [Bool.and_eq_true, decide_eq_true_eq, decide_eq_true_eq, hcast] at this
        exact this
      · rintro ⟨_, _, htgt⟩
        intro v hv
        rw [Bool.and_eq_true, decide_eq_true_eq, decide_eq_true_eq, hcast]
        exact htgt v hv

/-- C5 amended witness: the iff instantiated on the path graph. -/
theorem C5_witness :
    pathG4.validate = true ↔
      (pathG4.offsets ≠ [] ∧ pathG4.offsets.getLastD 0 = (pathG4.edges.length : Int) ∧
       ∀ v ∈ pathG4.edges, 0 ≤ v ∧ v < (pathG4.vertex_count : Int)) :=
  C5_validate_iff pathG4 (by decide) (by decide) (by decide)

/-- C8: Graph::neighbors succeeds exactly on u in [0, V), returning the
slice of the edges vector between offsets[u] and offsets[u+1] (that length
and those elements), and fails with the out-of-range error otherwise. -/
theorem C8_neighbors_spec (g : Graph) (u : Int) (hwf : g.csrWF) :
    ((0 ≤ u ∧ u < (g.vertex_count : Int)) →
      ∃ l, g.neighbors u = Except.ok l ∧
        (l.length : Int) = g.off (u.toNat + 1) - g.off u.toNat ∧
        ∀ i < l.length, l.getD i 0 =
          g.edges.getD ((g.off u.toNat).toNat + i) 0) ∧
    (¬ (0 ≤ u ∧ u < (g.vertex_count : Int)) →
      g.neighbors u = Except.error "Vertex index out of range") := by
  have hcast := csrWF_cast g hwf
  constructor
  · rintro ⟨h0, hV⟩
    have hcond : ¬ (u < 0 ∨ cppIntOfNat (sizeSub1 g.offsets.length) ≤ u) := by
      rw [hcast]
      omega
    refine ⟨g.nbrs u.toNat, ?_, ?_, ?_⟩
    · unfold Graph.neighbors
      rw [if_neg hcond]
    · have hu1 : u.toNat + 1 ≤ g.vertex_count := by omega
      have hlenOff : g.vertex_count < g.offsets.length := by
        have := hwf.1
        unfold Graph.vertex_count
        omega
      have hmono : g.off u.toNat ≤ g.off (u.toNat + 1) :=
        Graph.off_mono hwf (Nat.le_succ _) (by omega)
      have hle : g.off (u.toNat + 1) ≤ (g.edges.length : Int) :=
        Graph.off_le_E hwf hu1
      have h0off : 0 ≤ g.off u.toNat := Graph.off_nonneg hwf _
      unfold Graph.nbrs
      rw [List.length_take, List.length_drop]
      omega
    · intro i hi
      have h0off : 0 ≤ g.off u.toNat := Graph.off_nonneg hwf _
      have hu1 : u.toNat + 1 ≤ g.vertex_count := by omega
      have hle : g.off (u.toNat + 1) ≤ (g.edges.length : Int) :=
        Graph.off_le_E hwf hu1
      unfold Graph.nbrs at hi ⊢
      rw [List.length_take, List.length_drop] at hi
      rw [List.getD_eq_getElem?_getD, List.getD_eq_getElem?_getD,
        List.getElem?_take_of_lt (by omega), List.getElem?_drop]
  · intro hcond
    unfold Graph.neighbors
    rw [if_pos]
    rw [hcast]
    omega

/-- C8 witness: the characterization instantiated at the path graph and
vertex 1. -/
theorem C8_witness :
    ((0 ≤ (1 : Int) ∧ (1 : Int) < (pathG4.vertex_count : Int)) →
      ∃ l, pathG4.neighbors 1 = Except.ok l ∧
        (l.length : Int) = pathG4.off ((1 : Int).toNat + 1) - pathG4.off (1 : Int).toNat ∧
        ∀ i < l.length, l.getD i 0 =
          pathG4.edges.getD ((pathG4.off (1 : Int).toNat).toNat + i) 0) ∧
    (¬ (0 ≤ (1 : Int) ∧ (1 : Int) < (pathG4.vertex_count : Int)) →
      pathG4.neighbors 1 = Except.error "Vertex index out of range") :=
  C8_neighbors_spec pathG4 1 (by decide)

section MultiSourceLemmas

theorem countU_le (V : Nat) (d : Nat → Int) : countU V d ≤ V := by
  unfold countU
  calc ((Finset.range V).filter fun i => d i = UNREACHED).card
      ≤ (Finset.range V).card := Finset.card_filter_le _ _
    _ = V := Finset.card_range _

theorem countU_mono (V : Nat) {d d' : Nat → Int}
    (hmono : ∀ w, d' w = UNREACHED → d w = UNREACHED) :
    countU V d' ≤ countU V d := by
  apply Finset.card_le_card
  intro x hx
  simp only [Finset.mem_filter, Finset.mem_range] at hx ⊢
  exact ⟨hx.1, hmono x hx.2⟩

theorem countU_pos (V : Nat) {d : Nat → Int} {w : Nat} (hw : w < V)
    (hdw : d w = UNREACHED) : 1 ≤ countU V d := by
  apply Finset.card_pos.2
  exact ⟨w, Finset.mem_filter.2 ⟨Finset.mem_range.2 hw, hdw⟩⟩

theorem relaxNbrs_preserve (u : Nat) :
    ∀ (vs : List Int) (d : Nat → Int) (w : Nat),
      d w ≠ UNREACHED → (relaxNbrs u d vs).1 w = d w := by
  intro vs
  induction vs with
  | nil =>
    intro d w hw
    rfl
  | cons v vs ih =>
    intro d w hw
    by_cases hv : d v.toNat = UNREACHED
    · have hwv : w ≠ v.toNat := fun h => hw (h ▸ hv)
      have key : (relaxNbrs u d (v :: vs)).1 =
          (relaxNbrs u (fun i => if i = v.toNat then d u + 1 else d i) vs).1 := by
        simp only [relaxNbrs, if_pos hv]
      rw [key]
      have hne : (fun i => if i = v.toNat then d u + 1 else d i) w ≠ UNREACHED := by
        show (if w = v.toNat then d u + 1 else d w) ≠ UNREACHED
        rw [if_neg hwv]
        exact hw
      rw [ih _ w hne]
      show (if w = v.toNat then d u + 1 else d w) = d w
      rw [if_neg hwv]
    · have key : relaxNbrs u d (v :: vs) = relaxNbrs u d vs := by
        simp only [relaxNbrs, if_neg hv]
      rw [key]
      exact ih d w hw

theorem relaxNbrs_writes (u : Nat) :
    ∀ (vs : List Int) (d : Nat → Int) (w : Nat),
      (relaxNbrs u d vs).1 w ≠ d w → w ∈ vs.map Int.toNat := by
  intro vs
  induction vs with
  | nil =>
    intro d w hw
    exact absurd rfl hw
  | cons v vs ih =>
    intro d w hw
    by_cases hv : d v.toNat = UNREACHED
    · have key : (relaxNbrs u d (v :: vs)).1 =
          (relaxNbrs u (fun i => if i = v.toNat then d u + 1 else d i) vs).1 := by
        simp only [relaxNbrs, if_pos hv]
      rw [key] at hw
      by_cases hwv : w = v.toNat
      · exact List.mem_map.2 ⟨v, List.mem_cons_self _ _, hwv.symm⟩
      · by_cases hch : (relaxNbrs u (fun i => if i = v.toNat then d u + 1 else d i) vs).1 w =
            (fun i => if i = v.toNat then d u + 1 else d i) w
        · exfalso
          apply hw
          rw [hch]
          show (if w = v.toNat then d u + 1 else d w) = d w
          rw [if_neg hwv]
        · exact List.mem_cons_of_mem _ (ih _ w hch)
    · have key : relaxNbrs u d (v :: vs) = relaxNbrs u d vs := by
        simp only [relaxNbrs, if_neg hv]
      rw [key] at hw
      exact List.mem_cons_of_mem _ (ih d w hw)

/-- Value bound maintained by the multi-source kernel: every claimed cell
holds a non-negative value bounded by the number of cells already claimed,
so claimed values stay strictly below the sentinel while unreached cells
remain. -/
def ValBound (g : Graph) (d : Nat → Int) : Prop :=
  ∀ x, d x = UNREACHED ∨
    (0 ≤ d x ∧ d x ≤ (g.vertex_count : Int) - (countU g.vertex_count d : Int))

end MultiSourceLemmas

section MultiSourceCorrect

theorem relaxOne_preserve (g : Graph) (d : Nat → Int) (u w : Nat)
    (hw : d w ≠ UNREACHED) : (relaxOne g d u).1 w = d w :=
  relaxNbrs_preserve u (g.nbrs u) d w hw

theorem relaxOne_writes (g : Graph) (d : Nat → Int) (u w : Nat)
    (hw : (relaxOne g d u).1 w ≠ d w) : w ∈ g.nbrsN u :=
  relaxNbrs_writes u (g.nbrs u) d w hw

/-- Invariant of the inner serial BFS launched by the multi-source kernel:
queue members are valid claimed vertices, every claimed vertex is either
pending or has all its neighbors claimed, and claimed values are bounded. -/
def MsQInv (g : Graph) (q : List Nat) (d : Nat → Int) : Prop :=
  (∀ x ∈ q, x < g.vertex_count ∧ d x ≠ UNREACHED) ∧
  (∀ x, d x ≠ UNREACHED → x ∈ q ∨ ∀ w ∈ g.nbrsN x, d w ≠ UNREACHED) ∧
  ValBound g d

theorem baselineLoop_ms (g : Graph) (hwf : g.csrWF)
    (hV : (g.vertex_count : Int) < INT_MAX) :
    ∀ (fuel : Nat) (q : List Nat) (d : Nat → Int), MsQInv g q d →
      q.length + countU g.vertex_count d ≤ fuel →
      (∀ x, (ParallelBFS.baselineLoop g fuel q d) x ≠ UNREACHED →
        ∀ w ∈ g.nbrsN x, (ParallelBFS.baselineLoop g fuel q d) w ≠ UNREACHED) ∧
      (∀ x, d x ≠ UNREACHED → (ParallelBFS.baselineLoop g fuel q d) x = d x) ∧
      (∀ x, (ParallelBFS.baselineLoop g fuel q d) x ≠ d x →
        ∃ u0, u0 < g.vertex_count ∧ x ∈ g.nbrsN u0) ∧
      ValBound g (ParallelBFS.baselineLoop g fuel q d) := by
  intro fuel
  induction fuel with
  | zero =>
    intro q d hinv hfuel
    have hq : q = [] := by
      cases q with
      | nil => rfl
      | cons a t =>
        simp only [List.length_cons] at hfuel
        omega
    subst hq
    refine ⟨?_, fun x hx => rfl, fun x hx => absurd rfl hx, hinv.2.2⟩
    intro x hx w hw
    rcases hinv.2.1 x hx with hmem | hcls
    · exact absurd hmem (List.not_mem_nil x)
    · exact hcls w hw
  | succ fuel ih =>
    intro q d hinv hfuel
    cases q with
    | nil =>
      refine ⟨?_, fun x hx => rfl, fun x hx => absurd rfl hx, hinv.2.2⟩
      intro x hx w hw
      rcases hinv.2.1 x hx with hmem | hcls
      · exact absurd hmem (List.not_mem_nil x)
      · exact hcls w hw
    | cons u q' =>
      obtain ⟨hq, hcl, hvb⟩ := hinv
      have huV : u < g.vertex_count := (hq u (List.mem_cons_self _ _)).1
      have hu : d u ≠ UNREACHED := (hq u (List.mem_cons_self _ _)).2
      have hbound : 0 ≤ d u ∧
          d u ≤ (g.vertex_count : Int) - (countU g.vertex_count d : Int) := by
        rcases hvb u with h | h
        · exact absurd h hu
        · exact h
      have hUe : UNREACHED = (2147483647 : Int) := rfl
      have hIe : INT_MAX = (2147483647 : Int) := rfl
      rw [hIe] at hV
      have hno : d u + 1 = UNREACHED → ∀ w ∈ g.nbrsN u, d w ≠ UNREACHED := by
        intro hU w hw hdw
        have hwV : w < g.vertex_count := Graph.nbrsN_lt hwf hw
        have h1 : 1 ≤ countU g.vertex_count d := countU_pos _ hwV hdw
        rw [hUe] at hU
        omega
      obtain ⟨rd, rm, rn⟩ := relaxOne_spec g d u hu hno
      have hclaimNe : ∀ w, (d w = UNREACHED ∧ w ∈ g.nbrsN u) →
          (relaxOne g d u).1 w ≠ UNREACHED := by
        rintro w hcond
        have hwV : w < g.vertex_count := Graph.nbrsN_lt hwf hcond.2
        have h1 : 1 ≤ countU g.vertex_count d := countU_pos _ hwV hcond.1
        rw [rd w, if_pos hcond, hUe]
        omega
      have hmono : ∀ w, (relaxOne g d u).1 w = UNREACHED → d w = UNREACHED := by
        intro w hw
        by_cases hcond : d w = UNREACHED ∧ w ∈ g.nbrsN u
        · exact hcond.1
        · rw [rd w, if_neg hcond] at hw
          exact hw
      have hmemlist : ∀ w ∈ (relaxOne g d u).2,
          w < g.vertex_count ∧ d w = UNREACHED ∧
          (relaxOne g d u).1 w ≠ UNREACHED := by
        intro w hwm
        have hcond := (rm w).1 hwm
        exact ⟨Graph.nbrsN_lt hwf hcond.2, hcond.1, hclaimNe w hcond⟩
      have hdrop := countU_drop g.vertex_count (relaxOne g d u).2 rn hmemlist hmono
      have hinv' : MsQInv g (q' ++ (relaxOne g d u).2) (relaxOne g d u).1 := by
        refine ⟨?_, ?_, ?_⟩
        · intro x hx
          rcases List.mem_append.1 hx with hx' | hx'
          · have hxd := hq x (List.mem_cons_of_mem _ hx')
            refine ⟨hxd.1, ?_⟩
            rw [rd x, if_neg (fun hc => hxd.2 hc.1)]
            exact hxd.2
          · have h3 := hmemlist x hx'
            exact ⟨h3.1, h3.2.2⟩
        · intro x hx
          by_cases hdx : d x = UNREACHED
          · have hcond : d x = UNREACHED ∧ x ∈ g.nbrsN u := by
              by_contra hc
              rw [rd x, if_neg hc] at hx
              exact hx hdx
            exact Or.inl (List.mem_append.2 (Or.inr ((rm x).2 hcond)))
          · rcases hcl x hdx with hmemq | hnb
            · rcases List.mem_cons.1 hmemq with rfl | hmemq'
              · refine Or.inr fun w hw => ?_
                by_cases hdw : d w = UNREACHED
                · exact hclaimNe w ⟨hdw, hw⟩
                · rw [rd w, if_neg (fun hc => hdw hc.1)]
                  exact hdw
              · exact Or.inl (List.mem_append.2 (Or.inl hmemq'))
            · refine Or.inr fun w hw => ?_
              have hdw := hnb w hw
              rw [rd w, if_neg (fun hc => hdw hc.1)]
              exact hdw
        · intro x
          by_cases hdx' : (relaxOne g d u).1 x = UNREACHED
          · exact Or.inl hdx'
          · refine Or.inr ?_
            have hcumono : countU g.vertex_count (relaxOne g d u).1 ≤
                countU g.vertex_count d := countU_mono _ hmono
            by_cases hcond : d x = UNREACHED ∧ x ∈ g.nbrsN u
            · have hlen1 : 1 ≤ (relaxOne g d u).2.length := by
                have := (rm x).2 hcond
                exact List.length_pos.2 (List.ne_nil_of_mem this)
              rw [rd x, if_pos hcond]
              constructor
              · omega
              · omega
            · have hx : (relaxOne g d u).1 x = d x := by
                rw [rd x, if_neg hcond]
              rw [hx]
              have hdx : d x ≠ UNREACHED := by
                rw [← hx]
                exact hdx'
              rcases hvb x with h | h
              · exact absurd h hdx
              · exact ⟨h.1, by omega⟩
      have hm : (q' ++ (relaxOne g d u).2).length +
          countU g.vertex_count (relaxOne g d u).1 ≤ fuel := by
        simp only [List.length_append, List.length_cons] at hfuel ⊢
        omega
      have hstep : ParallelBFS.baselineLoop g (fuel + 1) (u :: q') d =
          ParallelBFS.baselineLoop g fuel (q' ++ (relaxOne g d u).2)
            (relaxOne g d u).1 := rfl
      rw [hstep]
      obtain ⟨ic, ip, iw, ivb⟩ := ih _ _ hinv' hm
      refine ⟨ic, ?_, ?_, ivb⟩
      · intro x hx
        have hd'x : (relaxOne g d u).1 x = d x := by
          rw [rd x, if_neg (fun hc => hx hc.1)]
        rw [ip x (by rw [hd'x]; exact hx), hd'x]
      · intro x hx
        by_cases hch : ParallelBFS.baselineLoop g fuel
            (q' ++ (relaxOne g d u).2) (relaxOne g d u).1 x =
            (relaxOne g d u).1 x
        · have hne : (relaxOne g d u).1 x ≠ d x := by
            rw [← hch]
            exact hx
          have hcond : d x = UNREACHED ∧ x ∈ g.nbrsN u := by
            by_contra hc
            rw [rd x, if_neg hc] at hne
            exact hne rfl
          exact ⟨u, huV, hcond.2⟩
        · exact iw x hch

end MultiSourceCorrect

section MsLoopCorrect

theorem msFind_some {g : Graph} {d : Nat → Int} {i : Nat}
    (h : ParallelBFS.msFind g d = some i) :
    i < g.vertex_count ∧ d i = UNREACHED ∧ g.nbrs i ≠ [] := by
  unfold ParallelBFS.msFind at h
  have hp := List.find?_some h
  have hm := List.mem_of_find?_eq_some h
  rw [List.mem_range] at hm
  rw [Bool.and_eq_true, decide_eq_true_eq] at hp
  refine ⟨hm, hp.1, fun hnil => ?_⟩
  have hp2 := hp.2
  rw [hnil] at hp2
  simp at hp2

theorem msFind_none {g : Graph} {d : Nat → Int}
    (h : ParallelBFS.msFind g d = none) :
    ∀ i, i < g.vertex_count → d i = UNREACHED → g.nbrs i = [] := by
  unfold ParallelBFS.msFind at h
  rw [List.find?_eq_none] at h
  intro i hi hdi
  by_contra hne
  apply h i (List.mem_range.2 hi)
  rw [Bool.and_eq_true, decide_eq_true_eq]
  refine ⟨hdi, ?_⟩
  simp [List.isEmpty_iff, hne]

theorem msLoop_spec (g : Graph) (hwf : g.csrWF)
    (hV : (g.vertex_count : Int) < INT_MAX) :
    ∀ (fuel : Nat) (d : Nat → Int),
      (∀ x, d x ≠ UNREACHED → ∀ w ∈ g.nbrsN x, d w ≠ UNREACHED) →
      ValBound g d →
      1 + countU g.vertex_count d ≤ fuel →
      (∀ x, (ParallelBFS.msLoop g fuel d) x ≠ UNREACHED →
        ∀ w ∈ g.nbrsN x, (ParallelBFS.msLoop g fuel d) w ≠ UNREACHED) ∧
      (∀ i, i < g.vertex_count → (ParallelBFS.msLoop g fuel d) i = UNREACHED →
        g.nbrs i = []) ∧
      (∀ x, (ParallelBFS.msLoop g fuel d) x ≠ d x →
        (g.nbrs x ≠ [] ∨ ∃ u0, u0 < g.vertex_count ∧ x ∈ g.nbrsN u0)) := by
  intro fuel
  induction fuel with
  | zero =>
    intro d hcl hvb hfuel
    omega
  | succ fuel ih =>
    intro d hcl hvb hfuel
    cases hfind : ParallelBFS.msFind g d with
    | none =>
      have hstep : ParallelBFS.msLoop g (fuel + 1) d = d := by
        simp only [ParallelBFS.msLoop]
        rw [hfind]
      rw [hstep]
      exact ⟨hcl, msFind_none hfind, fun x hx => absurd rfl hx⟩
    | some i =>
      obtain ⟨hiV, hiU, hine⟩ := msFind_some hfind
      have hstep : ParallelBFS.msLoop g (fuel + 1) d =
          ParallelBFS.msLoop g fuel
            (ParallelBFS.baselineLoop g (g.vertex_count + 1) [i]
              (fun j => if j = i then 0 else d j)) := by
        simp only [ParallelBFS.msLoop]
        rw [hfind]
      rw [hstep]
      have h0U : (0 : Int) ≠ UNREACHED := by decide
      have hd1mono : ∀ w, (fun j => if j = i then 0 else d j) w = UNREACHED →
          d w = UNREACHED := by
        intro w hw
        simp only [] at hw
        by_cases hwi : w = i
        · subst hwi
          rw [if_pos rfl] at hw
          exact absurd hw h0U
        · rw [if_neg hwi] at hw
          exact hw
      have hinv1 : MsQInv g [i] (fun j => if j = i then 0 else d j) := by
        refine ⟨?_, ?_, ?_⟩
        · intro x hx
          rw [List.mem_singleton] at hx
          subst hx
          refine ⟨hiV, ?_⟩
          beta_reduce
          rw [if_pos rfl]
          exact h0U
        · intro x hx
          simp only [] at hx
          by_cases hxi : x = i
          · subst hxi
            exact Or.inl (List.mem_singleton_self x)
          · rw [if_neg hxi] at hx
            refine Or.inr fun w hw => ?_
            beta_reduce
            by_cases hwi : w = i
            · subst hwi
              rw [if_pos rfl]
              exact h0U
            · rw [if_neg hwi]
              exact hcl x hx w hw
        · intro x
          have hcu1le : countU g.vertex_count (fun j => if j = i then 0 else d j) ≤
              g.vertex_count := countU_le _ _
          by_cases hxi : x = i
          · subst hxi
            refine Or.inr ?_
            beta_reduce
            rw [if_pos rfl]
            constructor
            · omega
            · omega
          · beta_reduce
            rw [if_neg hxi]
            rcases hvb x with h | h
            · exact Or.inl h
            · refine Or.inr ⟨h.1, ?_⟩
              have hle : countU g.vertex_count (fun j => if j = i then 0 else d j) ≤
                  countU g.vertex_count d := countU_mono _ hd1mono
              omega
      have hcu1 : countU g.vertex_count (fun j => if j = i then 0 else d j) <
          countU g.vertex_count d := by
        apply countU_lt _ hd1mono hiV hiU
        rw [if_pos rfl]
        exact h0U
      have hm1 : ([i] : List Nat).length +
          countU g.vertex_count (fun j => if j = i then 0 else d j) ≤
          g.vertex_count + 1 := by
        have := countU_le g.vertex_count (fun j => if j = i then 0 else d j)
        simp only [List.length_singleton]
        omega
      obtain ⟨ic2, ip2, iw2, ivb2⟩ :=
        baselineLoop_ms g hwf hV (g.vertex_count + 1) [i]
          (fun j => if j = i then 0 else d j) hinv1 hm1
      have hcu2 : countU g.vertex_count
          (ParallelBFS.baselineLoop g (g.vertex_count + 1) [i]
            (fun j => if j = i then 0 else d j)) <
          countU g.vertex_count d := by
        have hle : countU g.vertex_count
            (ParallelBFS.baselineLoop g (g.vertex_count + 1) [i]
              (fun j => if j = i then 0 else d j)) ≤
            countU g.vertex_count (fun j => if j = i then 0 else d j) := by
          apply countU_mono
          intro w hw
          by_contra hne
          have := ip2 w hne
          rw [this] at hw
          exact hne hw
        omega
      have hfuel2 : 1 + countU g.vertex_count
          (ParallelBFS.baselineLoop g (g.vertex_count + 1) [i]
            (fun j => if j = i then 0 else d j)) ≤ fuel := by
        omega
      obtain ⟨jc, jn, jw⟩ := ih _ ic2 ivb2 hfuel2
      refine ⟨jc, jn, ?_⟩
      intro x hx
      by_cases hch : ParallelBFS.msLoop g fuel
          (ParallelBFS.baselineLoop g (g.vertex_count + 1) [i]
            (fun j => if j = i then 0 else d j)) x =
          ParallelBFS.baselineLoop g (g.vertex_count + 1) [i]
            (fun j => if j = i then 0 else d j) x
      · rw [hch] at hx
        by_cases hch2 : ParallelBFS.baselineLoop g (g.vertex_count + 1) [i]
            (fun j => if j = i then 0 else d j) x =
            (fun j => if j = i then 0 else d j) x
        · rw [hch2] at hx
          simp only [] at hx
          by_cases hxi : x = i
          · subst hxi
            exact Or.inl hine
          · rw [if_neg hxi] at hx
            exact absurd rfl hx
        · rcases iw2 x hch2 with ⟨u0, hu0, hin⟩
          exact Or.inr ⟨u0, hu0, hin⟩
      · exact jw x hch

end MsLoopCorrect

/-- C2 counterexample: on the path graph 0 -> 1 -> 2 -> 3 the multi-source
kernel assigns vertex 1 (which has an out-edge) distance 1, not 0, and the
non-isolated vertex 2 distance 2, above 1: the claimed distance shape is
false for ParallelBFS::optimized_multi_source. -/
theorem C2_counterexample :
    pathG4.nbrs 1 ≠ [] ∧
    ParallelBFS.optimized_multi_source pathG4 allUnreached 1 ≠ 0 ∧
    ParallelBFS.optimized_multi_source pathG4 allUnreached 2 = 2 := by
  decide

/-- C2 amended: after the multi-source kernel runs on a valid graph whose
distance vector is pre-initialized to INT_MAX, every non-isolated vertex
(one with an out-edge or an in-edge) ends below UNREACHED, and every
isolated vertex ends at UNREACHED; the distances themselves are the levels
from the greedily chosen sources and may exceed 1. -/
theorem C2_multi_source_amended (g : Graph) (hwf : g.csrWF)
    (hV : (g.vertex_count : Int) < INT_MAX) (v : Nat)
    (hv : v < g.vertex_count) :
    ((g.nbrs v ≠ [] ∨ ∃ u, u < g.vertex_count ∧ v ∈ g.nbrsN u) →
      ParallelBFS.optimized_multi_source g allUnreached v ≠ UNREACHED) ∧
    ((g.nbrs v = [] ∧ ∀ u, u < g.vertex_count → v ∉ g.nbrsN u) →
      ParallelBFS.optimized_multi_source g allUnreached v = UNREACHED) := by
  have hcl0 : ∀ x, allUnreached x ≠ UNREACHED →
      ∀ w ∈ g.nbrsN x, allUnreached w ≠ UNREACHED := by
    intro x hx
    exact absurd rfl hx
  have hvb0 : ValBound g allUnreached := fun x => Or.inl rfl
  have hfuel0 : 1 + countU g.vertex_count allUnreached ≤ g.vertex_count + 1 := by
    have := countU_le g.vertex_count allUnreached
    omega
  obtain ⟨jc, jn, jw⟩ := msLoop_spec g hwf hV (g.vertex_count + 1)
    allUnreached hcl0 hvb0 hfuel0
  constructor
  · rintro (hout | ⟨u, huV, hin⟩)
    · intro hU
      exact hout (jn v hv hU)
    · have hune : g.nbrs u ≠ [] := by
        intro hnil
        unfold Graph.nbrsN at hin
        rw [hnil] at hin
        exact absurd hin (List.not_mem_nil v)
      intro hUv
      have hru : ParallelBFS.msLoop g (g.vertex_count + 1) allUnreached u ≠
          UNREACHED := by
        intro hUu
        exact hune (jn u huV hUu)
      exact (jc u hru v hin) hUv
  · rintro ⟨hout, hnoin⟩
    by_contra hne
    have hwr : ParallelBFS.msLoop g (g.vertex_count + 1) allUnreached v ≠
        allUnreached v := hne
    rcases jw v hwr with h | ⟨u0, hu0, hin⟩
    · exact h hout
    · exact hnoin u0 hu0 hin

/-- C2 amended witness: the guarantees at the path graph for the
non-isolated vertex 1. -/
theorem C2_witness :
    (pathG4.nbrs 1 ≠ [] ∨ ∃ u, u < pathG4.vertex_count ∧ 1 ∈ pathG4.nbrsN u) ∧
    ParallelBFS.optimized_multi_source pathG4 allUnreached 1 ≠ UNREACHED :=
  ⟨Or.inl (by decide),
    (C2_multi_source_amended pathG4 (by decide) (by decide) 1 (by decide)).1
      (Or.inl (by decide))⟩

/-- Parsing the whitespace-separated integer token stream of an edge-list
file: while (file >> u >> v) succeeds, a pair is collected; a trailing lone
token ends the parse. -/
def parsePairs : List Int → List (Int × Int)
  | u :: v :: t => (u, v) :: parsePairs t
  | _ => []

/-- The distinct endpoint ids of an edge list, in order of first encounter
while streaming the file (the insertion order into the hash set). -/
def endpointsFE (el : List (Int × Int)) : List Int :=
  el.foldl (fun acc p =>
    let acc1 := if p.1 ∈ acc then acc else acc ++ [p.1]
    if p.2 ∈ acc1 then acc1 else acc1 ++ [p.2]) []

/-- x occurs as an endpoint of some edge of the list. -/
def isEndpoint (el : List (Int × Int)) (x : Int) : Prop :=
  ∃ p ∈ el, p.1 = x ∨ p.2 = x

instance (el : List (Int × Int)) (x : Int) : Decidable (isEndpoint el x) :=
  inferInstanceAs (Decidable (∃ p ∈ el, p.1 = x ∨ p.2 = x))

/-- An admissible enumeration of the std::unordered_set of unique endpoint
ids.  C++ leaves the iteration order of the hash set implementation-defined,
so the builder is modelled parametrically in it: any sequence listing each
distinct endpoint exactly once is admissible. -/
def admissibleOrder (el : List (Int × Int)) (order : List Int) : Prop :=
  order.Nodup ∧ (∀ x ∈ order, isEndpoint el x) ∧
  (∀ p ∈ el, p.1 ∈ order ∧ p.2 ∈ order)

instance (el : List (Int × Int)) (order : List Int) :
    Decidable (admissibleOrder el order) :=
  inferInstanceAs (Decidable (order.Nodup ∧ (∀ x ∈ order, isEndpoint el x) ∧
    (∀ p ∈ el, p.1 ∈ order ∧ p.2 ∈ order)))

/-- The contiguous internal id assigned to an original endpoint id: its
index in the enumeration order of the hash set (vertex_map of the source).
-/
def vmapO (order : List Int) (x : Int) : Nat := order.indexOf x

/-- Degree histogram of the builder: offsets[vmap(src) + 1] is incremented
for every edge, starting from an all-zero vector. -/
def degHist (order : List Int) (el : List (Int × Int)) : Nat → Nat :=
  el.foldl (fun h p => fun k =>
    if k = vmapO order p.1 + 1 then h k + 1 else h k) fun _ => 0

/-- The in-place prefix sum of the histogram: offsets[i] becomes the total
degree of the internal source ids below i. -/
def offArr (order : List Int) (el : List (Int × Int)) : Nat → Nat
  | 0 => degHist order el 0
  | i + 1 => offArr order el i + degHist order el (i + 1)

/-- Second pass of the builder: the cursor vector pos starts as a copy of
offsets[0..V); each edge in file order writes its remapped destination at
the cursor of its remapped source and advances that cursor. -/
def placeLoop (order : List Int) :
    List (Int × Int) → (Nat → Int) → (Nat → Nat) → ((Nat → Int) × (Nat → Nat))
  | [], eArr, pos => (eArr, pos)
  | p :: t, eArr, pos =>
    placeLoop order t
      (fun k => if k = pos (vmapO order p.1)
        then (vmapO order p.2 : Int) else eArr k)
      (fun k => if k = vmapO order p.1
        then pos (vmapO order p.1) + 1 else pos k)

/-- GraphGenerator::from_file (src/parallel_bfs.cpp:21) on the parsed edge
list, parametrized by the enumeration order of the unordered_set of
endpoint ids.  Builds CSR offsets by histogram and prefix sum, places the
destinations with per-source cursors; the Graph constructor rejects an
empty vertex set. -/
def fromFileWith (el : List (Int × Int)) (order : List Int) :
    Except String Graph :=
  if order.length = 0 then Except.error "Graph must have at least 1 vertex"
  else
    Except.ok (Graph.mk
      ((List.range (order.length + 1)).map fun i => (offArr order el i : Int))
      ((List.range el.length).map fun i =>
        (placeLoop order el (fun _ => 0) (offArr order el)).1 i))

/-- GraphGenerator::from_file on a raw token stream. -/
def GraphGenerator.from_file (tokens : List Int) (order : List Int) :
    Except String Graph :=
  fromFileWith (parsePairs tokens) order

/-- C6 counterexample: internal ids are assigned in the iteration order of
the std::unordered_set, which C++ leaves implementation-defined, not in
first-encounter order.  For the file with tokens 5 7 the enumeration
[7, 5] is admissible, and under it the first-encountered endpoint 5
receives internal id 1, not 0 as the claim requires. -/
theorem C6_counterexample :
    admissibleOrder (parsePairs [5, 7]) [7, 5] ∧
    endpointsFE (parsePairs [5, 7]) = [5, 7] ∧
    vmapO [7, 5] 5 ≠ 0 := by
  decide

/-- C6 amended: for every parsed edge list and every admissible hash-set
enumeration, the builder assigns contiguous zero-based internal ids: every
distinct endpoint receives an id below the number of distinct endpoints,
distinct endpoints receive distinct ids, and every id below that count is
taken; the assignment order is the set iteration order, not necessarily
first-encounter order. -/
theorem C6_ids_amended (el : List (Int × Int)) (order : List Int)
    (hadm : admissibleOrder el order) :
    (∀ x, isEndpoint el x → vmapO order x < order.length) ∧
    (∀ x y, isEndpoint el x → isEndpoint el y →
      vmapO order x = vmapO order y → x = y) ∧
    (∀ k, k < order.length → ∃ x, isEndpoint el x ∧ vmapO order x = k) := by
  obtain ⟨hnd, hord, hcov⟩ := hadm
  have hmem : ∀ x, isEndpoint el x → x ∈ order := by
    rintro x ⟨p, hp, hx | hx⟩
    · exact hx ▸ (hcov p hp).1
    · exact hx ▸ (hcov p hp).2
  refine ⟨?_, ?_, ?_⟩
  · intro x hx
    exact List.indexOf_lt_length.2 (hmem x hx)
  · intro x y hx hy hxy
    exact (List.indexOf_inj (hmem x hx) (hmem y hy)).1 hxy
  · intro k hk
    refine ⟨order.get ⟨k, hk⟩, hord _ (List.get_mem order k hk), ?_⟩
    unfold vmapO
    exact List.indexOf_getElem hnd k hk

/-- C6 amended witness: the id properties at the concrete single-edge list
with the reversed admissible enumeration. -/
theorem C6_witness :
    (∀ x, isEndpoint (parsePairs [5, 7]) x → vmapO [7, 5] x < 2) ∧
    (∀ x y, isEndpoint (parsePairs [5, 7]) x → isEndpoint (parsePairs [5, 7]) y →
      vmapO [7, 5] x = vmapO [7, 5] y → x = y) ∧
    (∀ k, k < 2 → ∃ x, isEndpoint (parsePairs [5, 7]) x ∧ vmapO [7, 5] x = k) :=
  C6_ids_amended (parsePairs [5, 7]) [7, 5] (by decide)

section RoundTrip

/-- Number of edges whose remapped source is u. -/
def srcCount (order : List Int) (el : List (Int × Int)) (u : Nat) : Nat :=
  el.countP fun p => decide (vmapO order p.1 = u)

/-- Remapped destinations of the edges with remapped source u, in file
order: the contents the counting sort must place in the slice of u. -/
def dsts (order : List Int) (el : List (Int × Int)) (u : Nat) : List Int :=
  (el.filter fun p => decide (vmapO order p.1 = u)).map
    fun p => (vmapO order p.2 : Int)

theorem countP_ext {α : Type} (p q : α → Bool) (l : List α)
    (h : ∀ a ∈ l, p a = q a) : l.countP p = l.countP q := by
  induction l with
  | nil => rfl
  | cons a t ih =>
    rw [List.countP_cons, List.countP_cons, h a (List.mem_cons_self _ _),
      ih fun b hb => h b (List.mem_cons_of_mem _ hb)]

theorem degHist_aux (order : List Int) :
    ∀ (el : List (Int × Int)) (h : Nat → Nat) (k : Nat),
      (el.foldl (fun h2 p => fun k2 =>
        if k2 = vmapO order p.1 + 1 then h2 k2 + 1 else h2 k2) h) k =
      h k + (el.countP fun p => decide (vmapO order p.1 + 1 = k)) := by
  intro el
  induction el with
  | nil =>
    intro h k
    simp
  | cons p t ih =>
    intro h k
    rw [List.foldl_cons, ih, List.countP_cons]
    show (if k = vmapO order p.1 + 1 then h k + 1 else h k) + _ = _
    by_cases hk : k = vmapO order p.1 + 1
    · rw [if_pos hk, if_pos (by rw [decide_eq_true_eq]; omega)]
      omega
    · rw [if_neg hk, if_neg (by rw [decide_eq_true_eq]; omega)]
      omega

theorem degHist_eq (order : List Int) (el : List (Int × Int)) (k : Nat) :
    degHist order el k =
      el.countP fun p => decide (vmapO order p.1 + 1 = k) := by
  unfold degHist
  rw [degHist_aux]
  omega

theorem degHist_zero (order : List Int) (el : List (Int × Int)) :
    degHist order el 0 = 0 := by
  rw [degHist_eq, List.countP_eq_zero]
  intro p hp
  rw [decide_eq_true_eq]
  omega

theorem degHist_succ (order : List Int) (el : List (Int × Int)) (u : Nat) :
    degHist order el (u + 1) = srcCount order el u := by
  rw [degHist_eq]
  apply countP_ext
  intro a ha
  rw [decide_eq_decide]
  omega

theorem offArr_zero (order : List Int) (el : List (Int × Int)) :
    offArr order el 0 = 0 :=
  degHist_zero order el

theorem offArr_succ (order : List Int) (el : List (Int × Int)) (u : Nat) :
    offArr order el (u + 1) = offArr order el u + srcCount order el u := by
  rw [offArr, degHist_succ]

theorem offArr_mono (order : List Int) (el : List (Int × Int)) :
    ∀ {i j : Nat}, i ≤ j → offArr order el i ≤ offArr order el j := by
  intro i j hij
  induction j with
  | zero =>
    have : i = 0 := Nat.le_zero.1 hij
    subst this
    exact le_refl _
  | succ j ihj =>
    rcases Nat.eq_or_lt_of_le hij with rfl | hlt
    · exact le_refl _
    · have h1 := ihj (Nat.lt_succ_iff.1 hlt)
      rw [offArr_succ]
      omega

theorem offArr_sum (order : List Int) (el : List (Int × Int)) :
    ∀ i, offArr order el i = ∑ u ∈ Finset.range i, srcCount order el u := by
  intro i
  induction i with
  | zero =>
    rw [offArr_zero]
    simp
  | succ i ih =>
    rw [offArr_succ, ih, Finset.sum_range_succ]

theorem sum_srcCount (order : List Int) :
    ∀ el : List (Int × Int), (∀ p ∈ el, p.1 ∈ order) →
      ∑ u ∈ Finset.range order.length, srcCount order el u = el.length := by
  intro el
  induction el with
  | nil =>
    intro hcov
    simp [srcCount]
  | cons p t ih =>
    intro hcov
    have h1 : vmapO order p.1 < order.length :=
      List.indexOf_lt_length.2 (hcov p (List.mem_cons_self _ _))
    unfold srcCount
    simp only [List.countP_cons]
    rw [Finset.sum_add_distrib]
    have h2 : ∑ u ∈ Finset.range order.length,
        (if decide (vmapO order p.1 = u) = true then 1 else 0) = 1 := by
      have h3 : ∀ u ∈ Finset.range order.length,
          (if decide (vmapO order p.1 = u) = true then 1 else 0) =
          (if vmapO order p.1 = u then 1 else 0) := by
        intro u _
        by_cases h : vmapO order p.1 = u
        · rw [if_pos h, if_pos (by rw [decide_eq_true_eq]; exact h)]
        · rw [if_neg h, if_neg (by rw [decide_eq_true_eq]; exact h)]
      rw [Finset.sum_congr rfl h3, Finset.sum_ite_eq _ _ (fun _ => 1),
        if_pos (Finset.mem_range.2 h1)]
    have h4 := ih fun q hq => hcov q (List.mem_cons_of_mem _ hq)
    unfold srcCount at h4
    rw [h2, h4]
    simp

theorem offArr_total (order : List Int) (el : List (Int × Int))
    (hcov : ∀ p ∈ el, p.1 ∈ order) :
    offArr order el order.length = el.length := by
  rw [offArr_sum]
  exact sum_srcCount order el hcov

theorem region_disjoint (order : List Int) (el : List (Int × Int))
    {u u' i i' : Nat} (hne : u ≠ u') (hi : i < srcCount order el u)
    (hi' : i' < srcCount order el u') :
    offArr order el u + i ≠ offArr order el u' + i' := by
  rcases Nat.lt_or_ge u u' with h | h
  · have h1 : offArr order el u + i < offArr order el (u + 1) := by
      rw [offArr_succ]
      omega
    have h2 : offArr order el (u + 1) ≤ offArr order el u' :=
      offArr_mono order el h
    omega
  · have hlt : u' < u := by omega
    have h1 : offArr order el u' + i' < offArr order el (u' + 1) := by
      rw [offArr_succ]
      omega
    have h2 : offArr order el (u' + 1) ≤ offArr order el u :=
      offArr_mono order el hlt
    omega

theorem dsts_length (order : List Int) (el : List (Int × Int)) (u : Nat) :
    (dsts order el u).length = srcCount order el u := by
  unfold dsts srcCount
  rw [List.length_map, List.countP_eq_length_filter]

end RoundTrip

section PlaceLoop

theorem srcCount_snoc (order : List Int) (done : List (Int × Int))
    (p : Int × Int) (u : Nat) :
    srcCount order (done ++ [p]) u =
      srcCount order done u + if vmapO order p.1 = u then 1 else 0 := by
  unfold srcCount
  rw [List.countP_append]
  congr 1
  rw [show ([p] : List (Int × Int)) = p :: [] from rfl, List.countP_cons]
  simp only [List.countP_nil, Nat.zero_add]
  by_cases h : vmapO order p.1 = u
  · rw [if_pos (by rw [decide_eq_true_eq]; exact h), if_pos h]
  · rw [if_neg (by rw [decide_eq_true_eq]; exact h), if_neg h]

theorem dsts_snoc_eq (order : List Int) (done : List (Int × Int))
    (p : Int × Int) :
    dsts order (done ++ [p]) (vmapO order p.1) =
      dsts order done (vmapO order p.1) ++ [(vmapO order p.2 : Int)] := by
  unfold dsts
  rw [List.filter_append, List.map_append]
  congr 1
  rw [show ([p] : List (Int × Int)) = p :: [] from rfl, List.filter_cons]
  rw [if_pos (by rw [decide_eq_true_eq])]
  rfl

theorem dsts_snoc_ne (order : List Int) (done : List (Int × Int))
    (p : Int × Int) (u : Nat) (h : vmapO order p.1 ≠ u) :
    dsts order (done ++ [p]) u = dsts order done u := by
  unfold dsts
  rw [List.filter_append]
  rw [show ([p] : List (Int × Int)) = p :: [] from rfl, List.filter_cons]
  rw [if_neg (by rw [decide_eq_true_eq]; exact h)]
  simp

theorem placeLoop_spec (order : List Int) (el : List (Int × Int)) :
    ∀ (todo done : List (Int × Int)) (eArr : Nat → Int) (pos : Nat → Nat),
      el = done ++ todo →
      (∀ u, pos u = offArr order el u + srcCount order done u) →
      (∀ u i, i < srcCount order done u →
        eArr (offArr order el u + i) = (dsts order done u).getD i 0) →
      ∀ u i, i < srcCount order el u →
        (placeLoop order todo eArr pos).1 (offArr order el u + i) =
        (dsts order el u).getD i 0 := by
  intro todo
  induction todo with
  | nil =>
    intro done eArr pos heq hpos harr u i hi
    rw [List.append_nil] at heq
    subst heq
    exact harr u i hi
  | cons p t ih =>
    intro done eArr pos heq hpos harr u i hi
    have hle : ∀ w, srcCount order done w ≤ srcCount order el w := by
      intro w
      rw [heq]
      unfold srcCount
      rw [List.countP_append]
      omega
    have hcell : pos (vmapO order p.1) =
        offArr order el (vmapO order p.1) +
        srcCount order done (vmapO order p.1) := hpos _
    have hstrict : srcCount order done (vmapO order p.1) <
        srcCount order el (vmapO order p.1) := by
      have h1 : srcCount order el (vmapO order p.1) =
          srcCount order done (vmapO order p.1) +
          srcCount order (p :: t) (vmapO order p.1) := by
        rw [heq]
        unfold srcCount
        rw [List.countP_append]
      have h2 : 1 ≤ srcCount order (p :: t) (vmapO order p.1) := by
        unfold srcCount
        rw [List.countP_cons, if_pos (by rw [decide_eq_true_eq])]
        omega
      omega
    rw [show placeLoop order (p :: t) eArr pos =
        placeLoop order t
          (fun k => if k = pos (vmapO order p.1)
            then (vmapO order p.2 : Int) else eArr k)
          (fun k => if k = vmapO order p.1
            then pos (vmapO order p.1) + 1 else pos k) from rfl]
    refine ih (done ++ [p]) _ _ ?_ ?_ ?_ u i hi
    · rw [heq, List.append_assoc]
      rfl
    · intro u'
      show (if u' = vmapO order p.1
          then pos (vmapO order p.1) + 1 else pos u') = _
      rw [srcCount_snoc]
      by_cases hu' : u' = vmapO order p.1
      · rw [if_pos hu', hcell, if_pos hu'.symm, hu']
        omega
      · rw [if_neg hu', hpos u', if_neg (fun h => hu' h.symm)]
        omega
    · intro u' i' hi'
      show (if offArr order el u' + i' = pos (vmapO order p.1)
          then (vmapO order p.2 : Int)
          else eArr (offArr order el u' + i')) = _
      rw [hcell]
      by_cases hu' : u' = vmapO order p.1
      · subst hu'
        rw [srcCount_snoc, if_pos rfl] at hi'
        rcases Nat.lt_or_ge i' (srcCount order done (vmapO order p.1)) with hlt | hge
        · rw [if_neg (by omega), harr _ i' hlt, dsts_snoc_eq order done p,
            List.getD_append _ _ _ _ (by rw [dsts_length]; exact hlt)]
        · have hieq : i' = srcCount order done (vmapO order p.1) := by omega
          rw [if_pos (by omega), dsts_snoc_eq order done p, hieq]
          have hlen : srcCount order done (vmapO order p.1) =
              (dsts order done (vmapO order p.1)).length := (dsts_length _ _ _).symm
          rw [List.getD_eq_getElem?_getD, hlen, List.getElem?_concat_length]
          rfl
      · rw [srcCount_snoc, if_neg (fun h => hu' h.symm)] at hi'
        have hi'' : i' < srcCount order done u' := by omega
        have hdisj : offArr order el u' + i' ≠
            offArr order el (vmapO order p.1) +
            srcCount order done (vmapO order p.1) :=
          region_disjoint order el hu'
            (lt_of_lt_of_le hi'' (hle u')) hstrict
        rw [if_neg hdisj, harr u' i' hi'',
          dsts_snoc_ne order done p u' (fun h => hu' h.symm)]

end PlaceLoop

section RoundTripMain

theorem fromFileWith_ok {el : List (Int × Int)} {order : List Int} {g : Graph}
    (hok : fromFileWith el order = Except.ok g) :
    order.length ≠ 0 ∧
    g = Graph.mk
      ((List.range (order.length + 1)).map fun i => (offArr order el i : Int))
      ((List.range el.length).map fun i =>
        (placeLoop order el (fun _ => 0) (offArr order el)).1 i) := by
  unfold fromFileWith at hok
  by_cases h : order.length = 0
  · rw [if_pos h] at hok
    cases hok
  · rw [if_neg h] at hok
    injection hok with h2
    exact ⟨h, h2.symm⟩

theorem fromFile_nbrs (el : List (Int × Int)) (order : List Int)
    (hadm : admissibleOrder el order) {g : Graph}
    (hok : fromFileWith el order = Except.ok g) :
    g.vertex_count = order.length ∧
    ∀ u, u < order.length → g.nbrs u = dsts order el u := by
  obtain ⟨hV0, rfl⟩ := fromFileWith_ok hok
  have hcov : ∀ p ∈ el, p.1 ∈ order := fun p hp => (hadm.2.2 p hp).1
  have hVc : (Graph.mk
      ((List.range (order.length + 1)).map fun i => (offArr order el i : Int))
      ((List.range el.length).map fun i =>
        (placeLoop order el (fun _ => 0) (offArr order el)).1 i)).vertex_count =
      order.length := by
    unfold Graph.vertex_count
    simp
  refine ⟨hVc, ?_⟩
  have hoff : ∀ i, i ≤ order.length →
      (Graph.mk
        ((List.range (order.length + 1)).map fun i => (offArr order el i : Int))
        ((List.range el.length).map fun i =>
          (placeLoop order el (fun _ => 0) (offArr order el)).1 i)).off i =
      (offArr order el i : Int) := by
    intro i hi
    unfold Graph.off
    show ((List.range (order.length + 1)).map
      fun j => (offArr order el j : Int)).getD i 0 = _
    rw [List.getD_eq_getElem?_getD, List.getElem?_map,
      List.getElem?_range (by omega)]
    rfl
  have heArr : ∀ u i, i < srcCount order el u →
      (placeLoop order el (fun _ => 0) (offArr order el)).1
        (offArr order el u + i) = (dsts order el u).getD i 0 := by
    apply placeLoop_spec order el el [] (fun _ => 0) (offArr order el) rfl
    · intro u
      unfold srcCount
      simp
    · intro u i hi
      unfold srcCount at hi
      simp at hi
  intro u hu
  have ha : ((Graph.mk
      ((List.range (order.length + 1)).map fun i => (offArr order el i : Int))
      ((List.range el.length).map fun i =>
        (placeLoop order el (fun _ => 0) (offArr order el)).1 i)).off u).toNat =
      offArr order el u := by
    rw [hoff u (by omega)]
    exact Int.toNat_natCast _
  have hc : (((Graph.mk
      ((List.range (order.length + 1)).map fun i => (offArr order el i : Int))
      ((List.range el.length).map fun i =>
        (placeLoop order el (fun _ => 0) (offArr order el)).1 i)).off (u + 1)) -
      (Graph.mk
      ((List.range (order.length + 1)).map fun i => (offArr order el i : Int))
      ((List.range el.length).map fun i =>
        (placeLoop order el (fun _ => 0) (offArr order el)).1 i)).off u).toNat =
      srcCount order el u := by
    rw [hoff (u + 1) (by omega), hoff u (by omega), offArr_succ]
    push_cast
    omega
  have hbound : offArr order el u + srcCount order el u ≤ el.length := by
    rw [← offArr_succ]
    calc offArr order el (u + 1) ≤ offArr order el order.length :=
          offArr_mono order el (by omega)
      _ = el.length := offArr_total order el hcov
  unfold Graph.nbrs
  rw [ha, hc]
  have hlenE : ((List.range el.length).map fun i =>
      (placeLoop order el (fun _ => 0) (offArr order el)).1 i).length =
      el.length := by
    simp
  have hlen1 : ((((List.range el.length).map fun i =>
      (placeLoop order el (fun _ => 0) (offArr order el)).1 i).drop
        (offArr order el u)).take (srcCount order el u)).length =
      srcCount order el u := by
    rw [List.length_take, List.length_drop, hlenE]
    omega
  have hlen2 : (dsts order el u).length = srcCount order el u :=
    dsts_length order el u
  apply List.ext_getElem?
  intro i
  by_cases hi : i < srcCount order el u
  · rw [List.getElem?_eq_getElem (by rw [hlen1]; exact hi),
      List.getElem?_eq_getElem (by rw [hlen2]; exact hi)]
    apply congrArg some
    rw [List.getElem_take, List.getElem_drop, List.getElem_map,
      List.getElem_range, heArr u i hi]
    exact List.getD_eq_getElem _ 0 _
  · rw [List.getElem?_eq_none (by rw [hlen1]; omega),
      List.getElem?_eq_none (by rw [hlen2]; omega)]

theorem flatMap_congr_mem {α β : Type} (l : List α) (f f2 : α → List β)
    (h : ∀ a ∈ l, f a = f2 a) : l.flatMap f = l.flatMap f2 := by
  induction l with
  | nil => rfl
  | cons a t ih =>
    rw [List.flatMap_cons, List.flatMap_cons, h a (List.mem_cons_self _ _),
      ih fun b hb => h b (List.mem_cons_of_mem _ hb)]

theorem flatMap_groups_perm (order : List Int) :
    ∀ (el : List (Int × Int)) (us : List Nat), us.Nodup →
      (∀ p ∈ el, vmapO order p.1 ∈ us) →
      (us.flatMap fun u =>
        (el.filter fun p => decide (vmapO order p.1 = u)).map
          fun p => (vmapO order p.1, (vmapO order p.2 : Int))).Perm
      (el.map fun p => (vmapO order p.1, (vmapO order p.2 : Int))) := by
  intro el
  induction el with
  | nil =>
    intro us _ _
    simp
  | cons p t ih =>
    intro us hnd hcls
    have hu0 : vmapO order p.1 ∈ us := hcls p (List.mem_cons_self _ _)
    obtain ⟨us1, us2, rfl⟩ := List.append_of_mem hu0
    have hnotmem1 : vmapO order p.1 ∉ us1 := by
      intro hmem
      exact List.disjoint_of_nodup_append hnd hmem (List.mem_cons_self _ _)
    have hnotmem2 : vmapO order p.1 ∉ us2 := by
      have h2 := (List.Nodup.of_append_right hnd : (vmapO order p.1 :: us2).Nodup)
      exact (List.nodup_cons.1 h2).1
    have hG0 : ((p :: t).filter fun q => decide (vmapO order q.1 = vmapO order p.1)).map
        (fun q => (vmapO order q.1, (vmapO order q.2 : Int))) =
        (vmapO order p.1, (vmapO order p.2 : Int)) ::
          (t.filter fun q => decide (vmapO order q.1 = vmapO order p.1)).map
            (fun q => (vmapO order q.1, (vmapO order q.2 : Int))) := by
      rw [List.filter_cons, if_pos (by rw [decide_eq_true_eq])]
      rfl
    have hGu : ∀ u, u ≠ vmapO order p.1 →
        ((p :: t).filter fun q => decide (vmapO order q.1 = u)).map
          (fun q => (vmapO order q.1, (vmapO order q.2 : Int))) =
        (t.filter fun q => decide (vmapO order q.1 = u)).map
          (fun q => (vmapO order q.1, (vmapO order q.2 : Int))) := by
      intro u hu
      rw [List.filter_cons, if_neg (by rw [decide_eq_true_eq]; exact fun h => hu h.symm)]
    have hkey : (us1 ++ vmapO order p.1 :: us2).flatMap
        (fun u => ((p :: t).filter fun q => decide (vmapO order q.1 = u)).map
          fun q => (vmapO order q.1, (vmapO order q.2 : Int))) =
        (us1.flatMap fun u =>
          (t.filter fun q => decide (vmapO order q.1 = u)).map
            fun q => (vmapO order q.1, (vmapO order q.2 : Int))) ++
        ((vmapO order p.1, (vmapO order p.2 : Int)) ::
          (((t.filter fun q => decide (vmapO order q.1 = vmapO order p.1)).map
            fun q => (vmapO order q.1, (vmapO order q.2 : Int))) ++
          (us2.flatMap fun u =>
            (t.filter fun q => decide (vmapO order q.1 = u)).map
              fun q => (vmapO order q.1, (vmapO order q.2 : Int))))) := by
      rw [List.flatMap_append, List.flatMap_cons]
      rw [flatMap_congr_mem us1 _ _ fun a ha => hGu a (fun h => hnotmem1 (h ▸ ha))]
      rw [flatMap_congr_mem us2 _ _ fun a ha => hGu a (fun h => hnotmem2 (h ▸ ha))]
      rw [hG0]
      rfl
    rw [hkey]
    have hmid := @List.perm_middle (Nat × Int)
      ((vmapO order p.1, (vmapO order p.2 : Int)) : Nat × Int)
      (us1.flatMap fun u =>
        (t.filter fun q => decide (vmapO order q.1 = u)).map
          fun q => (vmapO order q.1, (vmapO order q.2 : Int)))
      (((t.filter fun q => decide (vmapO order q.1 = vmapO order p.1)).map
          fun q => (vmapO order q.1, (vmapO order q.2 : Int))) ++
        (us2.flatMap fun u =>
          (t.filter fun q => decide (vmapO order q.1 = u)).map
            fun q => (vmapO order q.1, (vmapO order q.2 : Int))))
    apply hmid.trans
    rw [show (us1.flatMap fun u =>
        (t.filter fun q => decide (vmapO order q.1 = u)).map
          fun q => (vmapO order q.1, (vmapO order q.2 : Int))) ++
        (((t.filter fun q => decide (vmapO order q.1 = vmapO order p.1)).map
          fun q => (vmapO order q.1, (vmapO order q.2 : Int))) ++
        (us2.flatMap fun u =>
          (t.filter fun q => decide (vmapO order q.1 = u)).map
            fun q => (vmapO order q.1, (vmapO order q.2 : Int)))) =
        (us1 ++ vmapO order p.1 :: us2).flatMap
          (fun u => (t.filter fun q => decide (vmapO order q.1 = u)).map
            fun q => (vmapO order q.1, (vmapO order q.2 : Int))) from by
      rw [List.flatMap_append, List.flatMap_cons]]
    rw [List.map_cons]
    exact (ih (us1 ++ vmapO order p.1 :: us2) hnd
      fun q hq => hcls q (List.mem_cons_of_mem _ hq)).cons _

end RoundTripMain

/-- The list of CSR pairs of a graph: one pair (u, v) for every cell v of
every neighbor slice. -/
def csrPairs (g : Graph) : List (Nat × Int) :=
  (List.range g.vertex_count).flatMap fun u => (g.nbrs u).map fun v => (u, v)

/-- C7: CSR round trip.  For every parsed edge list and admissible hash-set
enumeration, if the builder returns a graph then the multiset of CSR pairs
equals the multiset of the edges remapped through the builder's id mapping:
duplicates are preserved, nothing is added or dropped. -/
theorem C7_roundtrip (el : List (Int × Int)) (order : List Int)
    (hadm : admissibleOrder el order) {g : Graph}
    (hok : fromFileWith el order = Except.ok g) :
    (↑(csrPairs g) : Multiset (Nat × Int)) =
    ↑(el.map fun p => (vmapO order p.1, (vmapO order p.2 : Int))) := by
  rw [Multiset.coe_eq_coe]
  obtain ⟨hVc, hnbrs⟩ := fromFile_nbrs el order hadm hok
  unfold csrPairs
  rw [hVc]
  have hgrp : ∀ u ∈ List.range order.length,
      (g.nbrs u).map (fun v => ((u, v) : Nat × Int)) =
      (el.filter fun p => decide (vmapO order p.1 = u)).map
        fun p => (vmapO order p.1, (vmapO order p.2 : Int)) := by
    intro u hu
    rw [List.mem_range] at hu
    rw [hnbrs u hu]
    unfold dsts
    rw [List.map_map]
    apply List.map_congr_left
    intro q hq
    have hqu := List.of_mem_filter hq
    rw [decide_eq_true_eq] at hqu
    show (u, (vmapO order q.2 : Int)) = _
    rw [hqu]
  rw [flatMap_congr_mem _ _ _ hgrp]
  apply flatMap_groups_perm
  · exact List.nodup_range _
  · intro q hq
    have h1 : q.1 ∈ order := (hadm.2.2 q hq).1
    exact List.mem_range.2 (List.indexOf_lt_length.2 h1)

/-- C7 witness: the round trip on the single-edge list with tokens 5 7 and
enumeration [5, 7], whose built CSR is offsets [0, 1, 1], edges [1]. -/
theorem C7_witness :
    (↑(csrPairs (Graph.mk [0, 1, 1] [1])) : Multiset (Nat × Int)) =
    ↑([((5 : Int), (7 : Int))].map fun p =>
      (vmapO [5, 7] p.1, (vmapO [5, 7] p.2 : Int))) :=
  C7_roundtrip [(5, 7)] [5, 7] (by decide) rfl

/-! ### Hybrid BFS (spec section 4.E)

`ParallelBFS::optimized_hybrid` is called at src/main.cpp:91 but its
definition is not present anywhere under src/, so the kernel below is
modelled from the specification text rather than from source code. -/

/-- Modelled from the spec: `avg_degree` as the Graph constructor computes
it (parallel_bfs.h:27), edge count divided by max(1, vertex count); the
C++ field is a float, the quotient is represented exactly in ℚ. -/
def Graph.avgDegQ (g : Graph) : ℚ :=
  (g.edge_count : ℚ) / ((max 1 g.vertex_count : Nat) : ℚ)

/-- Modelled from the spec: the test `work_est > bound` of the mode
heuristic, with `work_est = fsize * avg_degree`; decided exactly by
cross-multiplication over the naturals. -/
def workEstGt (g : Graph) (fsize bound : Nat) : Bool :=
  decide (fsize * g.edge_count > bound * max 1 g.vertex_count)

/-- Modelled from the spec: the materialization test `work_est > V / 4`
of section 4.E step 2, decided exactly by cross-multiplication. -/
def workEstGtQuarterV (g : Graph) (fsize : Nat) : Bool :=
  decide (4 * (fsize * g.edge_count) > g.vertex_count * max 1 g.vertex_count)

/-- Modelled from the spec: the mode selection of section 4.E step 1:
bottom-up iff remainder_ready and (work_est > |remainder| or
(iteration > 10 and |frontier| < 100)). -/
def chooseBottomUp (g : Graph) (ready : Bool) (fsize rsize iter : Nat) :
    Bool :=
  ready &&
    (workEstGt g fsize rsize || (decide (iter > 10) && decide (fsize < 100)))

/-- One per-level record of the hybrid kernel: the four quantities the mode
heuristic inspects, and the direction decision taken at that level. -/
structure HTrace where
  fsize : Nat
  rsize : Nat
  ready : Bool
  iter : Nat
  bottomUp : Bool
deriving DecidableEq

/-- Modelled from the spec: the bottom-up sweep of section 4.E step 4,
serialized: every remainder vertex still UNREACHED scans its out-neighbors
for one with a finite distance; on success it adopts that distance plus
one, joins the next frontier, and breaks out of the neighbor scan. -/
def buStep (g : Graph) : List Nat → (Nat → Int) → ((Nat → Int) × List Nat)
  | [], d => (d, [])
  | u :: rest, d =>
    if d u = UNREACHED then
      match (g.nbrs u).find? (fun v => decide (d v.toNat ≠ UNREACHED)) with
      | some v =>
        let d1 : Nat → Int := fun i => if i = u then d v.toNat + 1 else d i
        let r := buStep g rest d1
        (r.1, u :: r.2)
      | none => buStep g rest d
    else buStep g rest d

/-- Modelled from the spec: one level of the hybrid kernel.  Mode selection
(section 4.E step 1); on bottom-up, the sweep and the remainder refilter of
step 4; on top-down, lazy remainder materialization when work_est exceeds
V/4 (step 2) followed by the level step of step 3 (shared with
ParallelBFS::optimized, without the sort + unique pass, which the spec
notes is unnecessary here), and remainder maintenance by filtering once
materialized.  Returns ((distances, next frontier), (remainder, ready)). -/
def hybridStep (g : Graph) (d : Nat → Int) (f rem : List Nat) (ready : Bool)
    (iter : Nat) : ((Nat → Int) × List Nat) × (List Nat × Bool) :=
  if chooseBottomUp g ready f.length rem.length iter then
    let r := buStep g rem d
    ((r.1, r.2), (rem.filter fun u => decide (r.1 u = UNREACHED), true))
  else if ready = false ∧ workEstGtQuarterV g f.length = true then
    let rem2 := (List.range g.vertex_count).filter fun i =>
      decide (d i = UNREACHED)
    let r := ParallelBFS.tdProcess g d f
    ((r.1, r.2), (rem2.filter fun u => decide (r.1 u = UNREACHED), true))
  else
    let r := ParallelBFS.tdProcess g d f
    ((r.1, r.2),
      ((if ready then rem.filter fun u => decide (r.1 u = UNREACHED)
        else rem), ready))

/-- Modelled from the spec: the level loop of the hybrid kernel, recording
the per-level decision trace.  Each level records the frontier size,
remainder size, readiness flag and iteration counter inspected by the
heuristic together with the chosen direction; hybridStep executes the
bottom-up sweep exactly when the same predicate holds.  Fuel
vertex_count + 1 bounds the level count as for the other kernels. -/
def hybridLoop (g : Graph) :
    Nat → (Nat → Int) → List Nat → List Nat → Bool → Nat →
    ((Nat → Int) × List HTrace)
  | 0, d, _, _, _, _ => (d, [])
  | _ + 1, d, [], _, _, _ => (d, [])
  | fuel + 1, d, u :: f, rem, ready, iter =>
    let st := hybridStep g d (u :: f) rem ready iter
    let rest := hybridLoop g fuel st.1.1 st.1.2 st.2.1 st.2.2 (iter + 1)
    (rest.1,
      ⟨(u :: f).length, rem.length, ready, iter,
        chooseBottomUp g ready (u :: f).length rem.length iter⟩ :: rest.2)

/-- Modelled from the spec: ParallelBFS::optimized_hybrid, the multi-source
hybrid BFS of section 4.E.  Initialization: every cell UNREACHED except
that each vertex i with offsets[i] < offsets[i+1] is set to 0 and pushed
onto the initial frontier; remainder not yet materialized; iteration 0.
Returns the distance vector and the per-level decision trace. -/
def ParallelBFS.optimized_hybrid (g : Graph) :
    (Nat → Int) × List HTrace :=
  hybridLoop g (g.vertex_count + 1)
    (fun i =>
      if i < g.vertex_count ∧ g.off i < g.off (i + 1) then 0 else UNREACHED)
    ((List.range g.vertex_count).filter fun i =>
      decide (g.off i < g.off (i + 1)))
    [] false 0

theorem workEstGt_iff (g : Graph) (fsize bound : Nat) :
    workEstGt g fsize bound = true ↔
    (fsize : ℚ) * g.avgDegQ > (bound : ℚ) := by
  unfold workEstGt Graph.avgDegQ
  rw [decide_eq_true_eq]
  have hm : (0 : ℚ) < ((max 1 g.vertex_count : Nat) : ℚ) := by
    have h1 : 0 < max 1 g.vertex_count :=
      lt_of_lt_of_le Nat.one_pos (le_max_left _ _)
    exact_mod_cast h1
  rw [gt_iff_lt, gt_iff_lt, ← mul_div_assoc, lt_div_iff₀ hm]
  exact_mod_cast Iff.rfl

theorem chooseBottomUp_iff (g : Graph) (ready : Bool)
    (fsize rsize iter : Nat) :
    chooseBottomUp g ready fsize rsize iter = true ↔
    (ready = true ∧
      ((fsize : ℚ) * g.avgDegQ > (rsize : ℚ) ∨
        (iter > 10 ∧ fsize < 100))) := by
  unfold chooseBottomUp
  rw [Bool.and_eq_true, Bool.or_eq_true, Bool.and_eq_true, workEstGt_iff,
    decide_eq_true_eq, decide_eq_true_eq]

theorem hybridLoop_trace (g : Graph) (fuel : Nat) :
    ∀ (d : Nat → Int) (f rem : List Nat) (ready : Bool) (iter : Nat),
      ∀ e ∈ (hybridLoop g fuel d f rem ready iter).2,
        e.bottomUp = chooseBottomUp g e.ready e.fsize e.rsize e.iter := by
  induction fuel with
  | zero =>
    intro d f rem ready iter e he
    simp [hybridLoop] at he
  | succ fuel ih =>
    intro d f rem ready iter e he
    cases f with
    | nil => simp [hybridLoop] at he
    | cons u f' =>
      simp only [hybridLoop, List.mem_cons] at he
      rcases he with rfl | he
      · rfl
      · exact ih _ _ _ _ _ e he

/-- C3: At every level of the hybrid BFS loop, with
work_est = |frontier| * avg_degree, the bottom-up step is chosen exactly
when remainder_ready holds and either work_est > |remainder| or
(iteration > 10 and |frontier| < 100); and the first level is top-down,
with remainder_ready still false and the iteration counter 0. -/
theorem C3_mode_selection (g : Graph) :
    (∀ e ∈ (ParallelBFS.optimized_hybrid g).2,
      (e.bottomUp = true ↔
        e.ready = true ∧
          ((e.fsize : ℚ) * g.avgDegQ > (e.rsize : ℚ) ∨
            (e.iter > 10 ∧ e.fsize < 100)))) ∧
    ∀ e, (ParallelBFS.optimized_hybrid g).2.head? = some e →
      e.bottomUp = false ∧ e.ready = false ∧ e.iter = 0 := by
  constructor
  · intro e he
    rw [hybridLoop_trace g _ _ _ _ _ _ e he, chooseBottomUp_iff]
  · intro e he
    unfold ParallelBFS.optimized_hybrid at he
    cases hf : (List.range g.vertex_count).filter
        (fun i => decide (g.off i < g.off (i + 1))) with
    | nil =>
      rw [hf] at he
      simp [hybridLoop] at he
    | cons u f' =>
      rw [hf] at he
      simp only [hybridLoop, List.head?, Option.some.injEq] at he
      rw [← he]
      refine ⟨?_, rfl, rfl⟩
      show chooseBottomUp g false (u :: f').length 0 0 = false
      rfl

/-- C3 witness: the first level of the hybrid run on the path graph
0 -> 1 -> 2 -> 3: its trace entry has frontier size 3, empty remainder,
ready = false, iteration 0, and a top-down decision matching the
heuristic. -/
theorem C3_witness :
    (⟨3, 0, false, 0, false⟩ : HTrace) ∈
      (ParallelBFS.optimized_hybrid pathG4).2 ∧
    ((⟨3, 0, false, 0, false⟩ : HTrace).bottomUp = true ↔
      (⟨3, 0, false, 0, false⟩ : HTrace).ready = true ∧
        (((⟨3, 0, false, 0, false⟩ : HTrace).fsize : ℚ) * pathG4.avgDegQ >
            ((⟨3, 0, false, 0, false⟩ : HTrace).rsize : ℚ) ∨
          ((⟨3, 0, false, 0, false⟩ : HTrace).iter > 10 ∧
            (⟨3, 0, false, 0, false⟩ : HTrace).fsize < 100))) :=
  ⟨by decide, (C3_mode_selection pathG4).1 ⟨3, 0, false, 0, false⟩
    (by decide)⟩

/-! ### GraphGenerator::random (include/parallel_bfs.h:59) -/

/-- The mt19937 tempering transform applied to one stored 32-bit word. -/
def mtTemper (y0 : Nat) : Nat :=
  let y1 := y0 ^^^ (y0 >>> 11)
  let y2 := (y1 ^^^ ((y1 <<< 7) &&& 0x9d2c5680)) % 2 ^ 32
  let y3 := (y2 ^^^ ((y2 <<< 15) &&& 0xefc60000)) % 2 ^ 32
  y3 ^^^ (y3 >>> 18)

/-- The mt19937 seeding recurrence: word i is
1812433253 * (prev xor (prev >> 30)) + i mod 2^32. -/
def mtInitAux (prev : Nat) (i : Nat) : Nat → List Nat
  | 0 => []
  | k + 1 =>
    let w := (1812433253 * (prev ^^^ (prev >>> 30)) + i) % 2 ^ 32
    w :: mtInitAux w (i + 1) k

/-- The 624-word mt19937 state seeded from one 32-bit seed. -/
def mtInit (seed : Nat) : List Nat :=
  let s0 := seed % 2 ^ 32
  s0 :: mtInitAux s0 1 623

/-- The mt19937 twist, updating the state array in place from index 0 up;
argument k counts the remaining indices, so the current index is 624 - k. -/
def mtTwistLoop (mt : List Nat) : Nat → List Nat
  | 0 => mt
  | k + 1 =>
    let i := 624 - (k + 1)
    let y := (mt.getD i 0 &&& 0x80000000) +
      (mt.getD ((i + 1) % 624) 0 &&& 0x7fffffff)
    let w := mt.getD ((i + 397) % 624) 0 ^^^ (y >>> 1) ^^^
      (if y % 2 = 1 then 0x9908b0df else 0)
    mtTwistLoop (mt.set i w) k

/-- One full mt19937 twist over all 624 words. -/
def mtTwist (mt : List Nat) : List Nat := mtTwistLoop mt 624

/-- The state of a std::mt19937 engine: the word array and the position of
the next word to hand out. -/
structure MTState where
  mt : List Nat
  idx : Nat
deriving DecidableEq

/-- One draw from the engine: twist when the array is exhausted, then
temper the current word and advance the position. -/
def mtNext (s : MTState) : Nat × MTState :=
  if s.idx ≥ 624 then
    let m := mtTwist s.mt
    (mtTemper (m.getD 0 0), ⟨m, 1⟩)
  else
    (mtTemper (s.mt.getD s.idx 0), ⟨s.mt, s.idx + 1⟩)

/-- std::mt19937 gen(seed): freshly seeded state, first draw twists. -/
def mtOfSeed (seed : Nat) : MTState := ⟨mtInit seed, 624⟩

/-- One call of std::uniform_real_distribution over [0, 1) on the engine:
two 32-bit draws combined low-to-high and scaled by 2^-64, in the manner of
generate_canonical for doubles; the value is represented exactly in ℚ
rather than rounded to double. -/
def uniform01 (s : MTState) : ℚ × MTState :=
  let r0 := mtNext s
  let r1 := mtNext r0.2
  (((r0.1 : ℚ) + (r1.1 : ℚ) * 2 ^ 32) / 2 ^ 64, r1.2)

/-- The inner loop of GraphGenerator::random for row u: for each candidate
target v in order, when u differs from v one variate is drawn and v is
appended iff the variate is below the density (short-circuit: no draw when
u equals v). -/
def randomRow (V u : Nat) (density : ℚ) (st : MTState) :
    MTState × List Int :=
  (List.range V).foldl
    (fun acc v =>
      if u ≠ v then
        let r := uniform01 acc.1
        if r.1 < density then (r.2, acc.2 ++ [(v : Int)]) else (r.2, acc.2)
      else acc)
    (st, [])

/-- The body of GraphGenerator::random after the argument guards: row-major
generation, offsets[u] holding the edge count before row u and a final
entry holding the total edge count. -/
def GraphGenerator.randomBody (V : Nat) (density : ℚ) (seed : Nat) :
    Graph :=
  let fin := (List.range V).foldl
    (fun (acc : MTState × List Int × List Int) u =>
      let row := randomRow V u density acc.1
      (row.1, acc.2.1 ++ [(acc.2.2.length : Int)], acc.2.2 ++ row.2))
    (mtOfSeed seed, [], [])
  Graph.mk (fin.2.1 ++ [(fin.2.2.length : Int)]) fin.2.2

/-- GraphGenerator::random (include/parallel_bfs.h:59) under the call
convention of its declaration (parallel_bfs.h:14): the seed parameter
defaults to one word drawn from std::random_device, modelled by the
explicit entropy argument dev; when a seed is passed the entropy is
unused.  The float density and the double variates are represented
exactly in ℚ; invalid arguments raise the invalid_argument errors. -/
def GraphGenerator.random (V : Nat) (density : ℚ) (seedArg : Option Nat)
    (dev : Nat) : Except String Graph :=
  let seed := seedArg.getD (dev % 2 ^ 32)
  if V = 0 then Except.error "Graph must have at least 1 vertex"
  else if density < 0 ∨ density > 1 then
    Except.error "Density must be between 0 and 1"
  else Except.ok (GraphGenerator.randomBody V density (seed % 2 ^ 32))

/-- C10: GraphGenerator::random is deterministic in (V, density, seed):
with an explicit seed the result is independent of the random_device
entropy, so any two calls with the same arguments return the same value,
and in particular equal offsets sequences and equal edges sequences. -/
theorem C10_random_deterministic (V : Nat) (density : ℚ)
    (seed dev1 dev2 : Nat) :
    GraphGenerator.random V density (some seed) dev1 =
      GraphGenerator.random V density (some seed) dev2 ∧
    Except.map Graph.offsets (GraphGenerator.random V density (some seed) dev1) =
      Except.map Graph.offsets (GraphGenerator.random V density (some seed) dev2) ∧
    Except.map Graph.edges (GraphGenerator.random V density (some seed) dev1) =
      Except.map Graph.edges (GraphGenerator.random V density (some seed) dev2) :=
  ⟨rfl, rfl, rfl⟩
